import Mathlib

/-
  Verification of the markdown-to-html converter (src/app.py).

  The source is embedded shallowly: strings are lists of characters
  (`Str := List Char`), every Python function of the core becomes a Lean
  definition of the same name, and the stateful line-scanning loop of
  `md_to_html` becomes a fuel-indexed structural recursion where the fuel
  is the number of remaining input lines (the Python loop advances the
  line cursor `i` by at least one per iteration, so the fuel never runs
  out on the initial call; the fuel-exhausted branches are unreachable).

  Python regexes are embedded as hand-written matchers that follow the
  regex semantics (anchored `re.match`, leftmost shortest match for the
  non-greedy inline patterns, left-to-right non-overlapping `re.sub`).
  The modelled character range is the one reachable here: `str.splitlines`
  boundaries and ASCII/Unicode whitespace are spelled out below; exotic
  Unicode digits (which Python's `\d` would also accept) are outside the
  modelled range and noted where relevant.
-/

set_option maxRecDepth 20000

namespace MD

abbrev Str := List Char

def str (s : String) : Str := s.data

/-- Characters at which Python `str.splitlines` breaks a line
(LF, CR, VT, FF, FS, GS, RS, NEL, LINE SEPARATOR, PARAGRAPH SEPARATOR),
given by code point. -/
def isLineBreak (c : Char) : Bool :=
  let n := c.toNat
  n == 10 || n == 13 || n == 11 || n == 12 || n == 28 || n == 29 ||
  n == 30 || n == 133 || n == 0x2028 || n == 0x2029

/-- Whitespace in the sense of Python `str.strip()` and of `\s` in the
`re` module, given by code point (space, tab, the control whitespace,
NBSP, OGHAM SPACE MARK and the Unicode space/format separators). -/
def pyIsSpace (c : Char) : Bool :=
  let n := c.toNat
  n == 32 || n == 9 || n == 10 || n == 13 || n == 11 || n == 12 ||
  n == 28 || n == 29 || n == 30 || n == 133 || n == 160 ||
  n == 0x1680 || (0x2000 ≤ n && n ≤ 0x200a) || n == 0x2028 ||
  n == 0x2029 || n == 0x202f || n == 0x205f || n == 0x3000

/-- An ASCII digit (`\d` of the `re` module restricted to the modelled
ASCII range), by code point. -/
def pyIsDigit (c : Char) : Bool := 48 ≤ c.toNat && c.toNat ≤ 57

/-- Python `str.rstrip()` (no argument: strip trailing whitespace). -/
def rstrip (l : Str) : Str := (l.reverse.dropWhile pyIsSpace).reverse

/-- Python `str.strip()`. -/
def strip (l : Str) : Str := (rstrip l).dropWhile pyIsSpace

/-- Python `str.split(sep)` for a one-character separator. -/
def splitOnChar (sep : Char) : Str → List Str
  | [] => [[]]
  | c :: cs =>
    if c == sep then [] :: splitOnChar sep cs
    else
      match splitOnChar sep cs with
      | [] => [[c]]
      | t :: ts => (c :: t) :: ts

/-- Python `str.strip("|")`: strip leading and trailing pipe characters. -/
def stripPipes (l : Str) : Str :=
  ((l.dropWhile (· == '|')).reverse.dropWhile (· == '|')).reverse

def splitlinesAux : Str → Str → List Str
  | [], acc => if acc.isEmpty then [] else [acc.reverse]
  | '\r' :: '\n' :: rest, acc => acc.reverse :: splitlinesAux rest []
  | c :: rest, acc =>
    if isLineBreak c then acc.reverse :: splitlinesAux rest []
    else splitlinesAux rest (c :: acc)

/-- Python `str.splitlines()`. -/
def splitlines (s : Str) : List Str := splitlinesAux s []

/-- Column width of the leading whitespace of a line after
`str.expandtabs(4)`: a tab advances to the next multiple of 4, any other
character counts one column. -/
def expandCol (col : Nat) : Str → Nat
  | [] => col
  | c :: cs =>
    if c == '\t' then expandCol (col + (4 - col % 4)) cs
    else expandCol (col + 1) cs

/-- `len(re.match(r"^(\s*)", l).group(1).expandtabs(4))` from `_list_match`. -/
def indentWidth (l : Str) : Nat := expandCol 0 (l.takeWhile pyIsSpace)

/-- Number of (possibly overlapping) occurrences of the pattern `p`
as a contiguous substring: one test per start position. -/
def countSub (p : Str) : Str → Nat
  | [] => 0
  | c :: cs => (if p.isPrefixOf (c :: cs) then 1 else 0) + countSub p cs

/-- `html.escape(text, quote=False)`: `&` is replaced first, then `<`
and `>`; since each replacement consumes a single character and the
replaced text is not rescanned, this equals the character-wise map. -/
def escChar (c : Char) : Str :=
  if c == '&' then str "&amp;"
  else if c == '<' then str "&lt;"
  else if c == '>' then str "&gt;"
  else [c]

def escape_html (t : Str) : Str := (t.map escChar).flatten

/-- One pass of `re.sub` with a matcher `try` that attempts an anchored
match at the given position and returns the replacement plus the rest of
the input after the match.  Scans left to right, non-overlapping.  The
fuel is the length of the input; every step consumes at least one input
character, so the zero-fuel branch is unreachable on the initial call. -/
def subPass (tryAt : Str → Option (Str × Str)) : Nat → Str → Str
  | 0, cs => cs
  | _ + 1, [] => []
  | n + 1, c :: cs =>
    match tryAt (c :: cs) with
    | some (repl, rest) => repl ++ subPass tryAt n rest
    | none => c :: subPass tryAt n cs

/-- Shared tail of the image/link matchers: after `[`, capture
`[^\]]*` up to `]`, require `(`, capture `[^)]+`, require `)`. -/
def bracketParen (rest : Str) : Option (Str × Str × Str) :=
  let alt := rest.takeWhile (· ≠ ']')
  match rest.dropWhile (· ≠ ']') with
  | ']' :: rest1 =>
    match rest1 with
    | '(' :: rest2 =>
      let src := rest2.takeWhile (· ≠ ')')
      if src.isEmpty then none
      else
        match rest2.dropWhile (· ≠ ')') with
        | ')' :: rest3 => some (alt, src, rest3)
        | _ => none
    | _ => none
  | _ => none

/-- Anchored match of `IMAGE_RE = !\[([^\]]*)\]\(([^)]+)\)` together with
the `_img` replacement from `inline_parse`. -/
def tryImg : Str → Option (Str × Str)
  | [] => none
  | c :: cs =>
    if c = '!' then
      match cs with
      | '[' :: rest =>
        match bracketParen rest with
        | some (alt, src, rest3) =>
          some (str "<img src=\"" ++ escape_html src ++ str "\" alt=\"" ++
                escape_html alt ++ str "\" loading=\"lazy\">", rest3)
        | none => none
      | _ => none
    else none

/-- Anchored match of `LINK_RE = \[([^\]]+)\]\(([^)]+)\)` together with
the `_link` replacement (the text group must be non-empty here). -/
def tryLink : Str → Option (Str × Str)
  | [] => none
  | c :: cs =>
    if c = '[' then
      match bracketParen cs with
      | some (t, u, rest3) =>
        if t.isEmpty then none
        else
          some (str "<a href=\"" ++ escape_html u ++ str "\">" ++
                escape_html t ++ str "</a>", rest3)
      | none => none
    else none

/-- Anchored match of ``INLINE_CODE_RE = `([^`]+)` `` with replacement
`<code>\1</code>`. -/
def tryCode : Str → Option (Str × Str)
  | [] => none
  | c :: cs =>
    if c = '`' then
      let t := cs.takeWhile (· ≠ '`')
      if t.isEmpty then none
      else
        match cs.dropWhile (· ≠ '`') with
        | '`' :: rest2 => some (str "<code>" ++ t ++ str "</code>", rest2)
        | _ => none
    else none

/-- Scan for the close of a non-greedy `(.+?)` group delimited by a
two-character marker `m m`: at each position the close is tried first
(leftmost-shortest), otherwise one more non-newline character is
consumed into the group. -/
def scanClose2 (m : Char) (acc : Str) : Str → Option (Str × Str)
  | [] => none
  | c :: rest =>
    if c == m && rest.head? == some m then some (acc.reverse, rest.tail)
    else if c == '\n' then none
    else scanClose2 m (c :: acc) rest

/-- Same for a one-character close marker. -/
def scanClose1 (m : Char) (acc : Str) : Str → Option (Str × Str)
  | c :: rest =>
    if c == m then some (acc.reverse, rest)
    else if c == '\n' then none
    else scanClose1 m (c :: acc) rest
  | [] => none

/-- Anchored match of a two-marker non-greedy pattern `mm(.+?)mm`
(bold and strikethrough): the group takes at least one non-newline
character before the close is considered. -/
def try2 (m : Char) (openTag closeTag : Str) : Str → Option (Str × Str)
  | [] => none
  | c :: cs =>
    if c = m then
      match cs with
      | c2 :: c3 :: cs3 =>
        if c2 = m then
          if c3 = '\n' then none
          else
            match scanClose2 m [c3] cs3 with
            | some (g, rest) => some (openTag ++ g ++ closeTag, rest)
            | none => none
        else none
      | _ => none
    else none

/-- Anchored match of `BOLD_RE = \*\*(.+?)\*\*` with replacement
`<strong>\1</strong>`. -/
def tryBold : Str → Option (Str × Str) :=
  try2 '*' (str "<strong>") (str "</strong>")

/-- Anchored match of `STRIKE_RE = ~~(.+?)~~` with replacement
`<del>\1</del>`. -/
def tryStrike : Str → Option (Str × Str) :=
  try2 '~' (str "<del>") (str "</del>")

/-- Anchored match of `ITALIC_RE = \*(.+?)\*` with replacement
`<em>\1</em>`. -/
def tryItalic : Str → Option (Str × Str)
  | [] => none
  | c :: cs =>
    if c = '*' then
      match cs with
      | c2 :: cs2 =>
        if c2 = '\n' then none
        else
          match scanClose1 '*' [c2] cs2 with
          | some (g, rest) => some (str "<em>" ++ g ++ str "</em>", rest)
          | none => none
      | [] => none
    else none

/-- `inline_parse`: images, links, inline code, bold, italic,
strikethrough, each a full `re.sub` pass over the previous result. -/
def inline_parse (text : Str) : Str :=
  let t1 := subPass tryImg text.length text
  let t2 := subPass tryLink t1.length t1
  let t3 := subPass tryCode t2.length t2
  let t4 := subPass tryBold t3.length t3
  let t5 := subPass tryItalic t4.length t4
  subPass tryStrike t5.length t5

/-- First character of a line after the leading whitespace run. -/
def firstNonWs (l : Str) : Option Char := (l.dropWhile pyIsSpace).head?

/-- Anchored match of `HEADING_RE = ^(#{1,6})\s*(.*)`: returns the
heading level (the greedy `#{1,6}` takes at most six hashes) and the
raw group 2 text (everything after the following whitespace run). -/
def headingMatch (l : Str) : Option (Nat × Str) :=
  let hashes := l.takeWhile (· == '#')
  if hashes.isEmpty then none
  else
    let level := min hashes.length 6
    some (level, (l.drop level).dropWhile pyIsSpace)

/-- Anchored match of `FENCE_RE = ^\s*```(.*)$`: returns group 1, the
rest of the line after the three backticks. -/
def fenceMatch (l : Str) : Option Str :=
  match l.dropWhile pyIsSpace with
  | '`' :: '`' :: '`' :: rest => some rest
  | _ => none

/-- Anchored match of `UL_ITEM_RE = ^\s*[-+*]\s+(.*)`: returns group 1
(the text after the marker and the greedy whitespace run). -/
def ulMatch (l : Str) : Option Str :=
  match l.dropWhile pyIsSpace with
  | c :: rest =>
    if c == '-' || c == '+' || c == '*' then
      match rest with
      | d :: _ => if pyIsSpace d then some (rest.dropWhile pyIsSpace) else none
      | [] => none
    else none
  | [] => none

/-- Anchored match of `OL_ITEM_RE = ^\s*(\d+)[.)]\s+(.*)`: returns
group 2.  `\d` is modelled as the ASCII digits. -/
def olMatch (l : Str) : Option Str :=
  let t := l.dropWhile pyIsSpace
  let digits := t.takeWhile pyIsDigit
  if digits.isEmpty then none
  else
    match t.drop digits.length with
    | c :: rest =>
      if c == '.' || c == ')' then
        match rest with
        | d :: _ => if pyIsSpace d then some (rest.dropWhile pyIsSpace) else none
        | [] => none
      else none
    | [] => none

/-- Anchored match of `BLOCKQUOTE_RE = ^>\s?(.*)`: returns group 1
(the rest after `>` and at most one whitespace character). -/
def bqMatch (l : Str) : Option Str :=
  match l with
  | '>' :: rest =>
    match rest with
    | d :: rest2 => if pyIsSpace d then some rest2 else some rest
    | [] => some []
  | _ => none

/-- Full match of `HR_RE = ^\s*((?:-{3,})|(?:\*{3,})|(?:_{3,}))\s*$`. -/
def isHR (l : Str) : Bool :=
  match l.dropWhile pyIsSpace with
  | c :: _ =>
    if c == '-' || c == '*' || c == '_' then
      let t := l.dropWhile pyIsSpace
      let run := t.takeWhile (· == c)
      3 ≤ run.length && (t.dropWhile (· == c)).all pyIsSpace
    else false
  | [] => false

/-- Full match of the table-row pattern `^\s*\|.+\|\s*$` used by the
driver: after outer whitespace the line starts and ends with a pipe
with at least one character in between. -/
def isTableLine (l : Str) : Bool :=
  match l.dropWhile pyIsSpace with
  | '|' :: rest =>
    let core := rstrip rest
    match core.getLast? with
    | some c => c == '|' && 2 ≤ core.length
    | none => false
  | _ => false

/-- `parse_table`: split each line on `|` after stripping outer pipes,
strip each cell; the first row is the header, and with more than two
rows the second row is dropped from the body. -/
def parse_table (lines : List Str) : Str :=
  let rows := lines.map (fun l => (splitOnChar '|' (stripPipes l)).map strip)
  match rows with
  | [] => []
  | header :: rtail =>
    let body := if 1 < rtail.length then rtail.drop 1 else rtail
    str "<table>\n<thead><tr>" ++
    (header.map (fun c => str "<th>" ++ c ++ str "</th>")).flatten ++
    str "</tr></thead>\n" ++ str "<tbody>" ++
    (body.map (fun r =>
      str "<tr>" ++ (r.map (fun c => str "<td>" ++ c ++ str "</td>")).flatten ++
      str "</tr>")).flatten ++
    str "</tbody></table>"

/-- `_list_match` from the list assembler: unordered items first, then
ordered; the indent is the expanded width of the leading whitespace and
the content is the stripped captured group. -/
def listMatch (l : Str) : Option (Str × Nat × Str) :=
  match ulMatch l with
  | some content => some (str "ul", indentWidth l, strip content)
  | none =>
    match olMatch l with
    | some content => some (str "ol", indentWidth l, strip content)
    | none => none

/-- `close_inline_li`: if the last emitted fragment does not already end
in `</li>`, right-strip it and append `</li>` to it in place. -/
def close_inline_li (hs : List Str) : List Str :=
  match hs.getLast? with
  | none => hs
  | some last =>
    if (str "</li>").isSuffixOf last then hs
    else hs.dropLast ++ [rstrip last ++ str "</li>"]

/-- The dedent loop of the list assembler: pop stack frames whose indent
exceeds the new indent, emitting a closing tag for each (the stack top
is the head of the list). -/
def popClose (hs : List Str) (stack : List (Nat × Str)) (ind : Nat) :
    List Str × List (Nat × Str) :=
  match stack with
  | [] => (hs, [])
  | (i, t) :: rest =>
    if ind < i then popClose (hs ++ [str "</" ++ t ++ str ">"]) rest ind
    else (hs, stack)

/-- Closing of all remaining frames at the end of a list run. -/
def closeAll (hs : List Str) (stack : List (Nat × Str)) : List Str :=
  match stack with
  | [] => hs
  | (_, t) :: rest => closeAll (hs ++ [str "</" ++ t ++ str ">"]) rest

/-- The body of the list-run loop of `md_to_html` (lines 185-227 of
src/app.py), processing the raw lines of one maximal run of list-item
lines against the nesting stack and the global fragment list. -/
def listAssemble (hs : List Str) (stack : List (Nat × Str)) :
    List Str → List Str
  | [] => closeAll (close_inline_li hs) stack
  | l :: ls =>
    match listMatch l with
    | none => closeAll (close_inline_li hs) stack
    | some (t, ind, content) =>
      let item := str "<li>" ++ inline_parse (escape_html content)
      match stack with
      | [] =>
        listAssemble (hs ++ [str "<" ++ t ++ str ">", item]) [(ind, t)] ls
      | (topInd, _) :: _ =>
        if topInd < ind then
          listAssemble
            (hs.dropLast ++
              [rstrip ((hs.getLast?).getD []) ++ str "<" ++ t ++ str ">", item])
            ((ind, t) :: stack) ls
        else if ind == topInd then
          listAssemble (close_inline_li hs ++ [item]) stack ls
        else
          let hs1 := close_inline_li hs
          let (hs2, stack2) := popClose hs1 stack ind
          listAssemble (close_inline_li hs2 ++ [item]) stack2 ls

/-- Predicate of the list-run inner loop (checked on the raw line). -/
def listPred (l : Str) : Bool := (ulMatch l).isSome || (olMatch l).isSome

/-- Predicate of the blockquote loop (checked on the right-stripped line). -/
def bqPred (l : Str) : Bool := (bqMatch (rstrip l)).isSome

/-- Predicate of the paragraph-collection loop (checked on the raw line). -/
def paraPred (l : Str) : Bool :=
  !(strip l).isEmpty && (headingMatch l).isNone && (ulMatch l).isNone &&
  (olMatch l).isNone && (fenceMatch l).isNone

/-- One paragraph line rendered: `pl.rstrip("\n")`, the two-trailing-space
explicit break, escaping plus inline rendering; `isLast` controls the
single-space join. -/
def paraPart (isLast : Bool) (pl : Str) : Str :=
  let pl := (pl.reverse.dropWhile (· == '\n')).reverse
  if (str "  ").isSuffixOf pl then
    inline_parse (escape_html (pl.take (pl.length - 2))) ++ str "<br>"
  else
    inline_parse (escape_html pl) ++ (if isLast then [] else str " ")

def paraParts : List Str → List Str
  | [] => []
  | [pl] => [paraPart true pl]
  | pl :: rest => paraPart false pl :: paraParts rest

/-- The assembled paragraph text: joined parts, stripped. -/
def buildPara (paraLines : List Str) : Str := strip (paraParts paraLines).flatten

/-- The lines of a paragraph joined by single spaces — the text of the
paragraph in the sense of the description claim. -/
def joinSp : List Str → Str
  | [] => []
  | [l] => l
  | l :: rest => l ++ ' ' :: joinSp rest

/-- `re.sub(r"<.*?>", "", parsed)`: drop each `<`-to-nearest-`>` span
(`.` does not match a newline); a `<` with no closing `>` on the same
line stays.  Fuel is the input length; each step consumes at least one
character. -/
def stripTags : Nat → Str → Str
  | 0, cs => cs
  | _ + 1, [] => []
  | n + 1, c :: cs =>
    if c == '<' then
      let span := cs.takeWhile (fun d => d ≠ '>' && d ≠ '\n')
      match cs.drop span.length with
      | '>' :: rest => stripTags n rest
      | _ => c :: stripTags n cs
    else c :: stripTags n cs

/-- Model of `html.unescape` restricted to the entity references this
pipeline can feed it: the output of `escape_html` (possibly with tags
removed) contains `&` only as part of `&amp;`, `&lt;` or `&gt;`, and on
such strings `html.unescape` is a single left-to-right replacement pass
of those three entities. -/
def pyUnescape : Nat → Str → Str
  | 0, cs => cs
  | _ + 1, [] => []
  | n + 1, c :: cs =>
    if c == '&' then
      if (str "amp;").isPrefixOf cs then '&' :: pyUnescape n (cs.drop 4)
      else if (str "lt;").isPrefixOf cs then '<' :: pyUnescape n (cs.drop 3)
      else if (str "gt;").isPrefixOf cs then '>' :: pyUnescape n (cs.drop 3)
      else c :: pyUnescape n cs
    else c :: pyUnescape n cs

/-- The meta-description computation for a first paragraph (lines
288-290 of src/app.py): tag-stripped, unescaped, truncated past 160
characters to 157 plus an ellipsis. -/
def computeMeta (parsed : Str) : Str :=
  let noTags := stripTags parsed.length parsed
  let clean := pyUnescape noTags.length noTags
  if 160 < clean.length then clean.take 157 ++ str "..." else clean

/-- Python falsiness of the optional `title` / `meta_desc` strings:
`None` and the empty string are falsy. -/
def optFalsy (o : Option Str) : Bool :=
  match o with
  | none => true
  | some t => t.isEmpty

/-- The digit character of a heading level (1-6). -/
def levelChar (n : Nat) : Char := Char.ofNat (48 + n)

/-- The loop state of `md_to_html`. -/
structure St where
  htmlLines : List Str
  title : Option Str
  meta : Option Str
  insideCode : Bool
  codeLang : Str
  codeLines : List Str
deriving Repr, DecidableEq

def initSt : St :=
  { htmlLines := [], title := none, meta := none,
    insideCode := false, codeLang := [], codeLines := [] }

/-- The fragment of a closed fenced code block. -/
def fenceFragment (st : St) : Str :=
  let codeHtml := List.intercalate (str "\n") (st.codeLines.map escape_html)
  let langClass :=
    if st.codeLang.isEmpty then []
    else str " class=\"language-" ++ escape_html st.codeLang ++ str "\""
  str "<pre><code" ++ langClass ++ str ">" ++ codeHtml ++ str "\n</code></pre>"

/-- The while-loop of `md_to_html` (lines 122-291 of src/app.py) over
the remaining lines.  The fuel is the number of remaining lines: every
iteration consumes at least one line (`i` strictly increases), so with
initial fuel `lines.length` the zero-fuel branch is never taken. -/
def goLines : Nat → St → List Str → St
  | 0, st, _ => st
  | _ + 1, st, [] => st
  | n + 1, st, raw :: rs =>
    let line := rstrip raw
    match fenceMatch line with
    | some g =>
      if st.insideCode then
        goLines n
          { st with insideCode := false,
                    htmlLines := st.htmlLines ++ [fenceFragment st] } rs
      else
        goLines n
          { st with insideCode := true, codeLang := strip g, codeLines := [] }
          rs
    | none =>
      if st.insideCode then
        goLines n { st with codeLines := st.codeLines ++ [raw] } rs
      else if (strip line).isEmpty then goLines n st rs
      else
        match headingMatch line with
        | some (level, t0) =>
          let text := strip t0
          let parsed := inline_parse (escape_html text)
          let title := if optFalsy st.title then some text else st.title
          goLines n
            { st with title := title,
                      htmlLines := st.htmlLines ++
                        [str "<h" ++ [levelChar level] ++ str ">" ++ parsed ++
                         str "</h" ++ [levelChar level] ++ str ">"] } rs
        | none =>
          if (ulMatch line).isSome || (olMatch line).isSome then
            let run := raw :: rs.takeWhile listPred
            goLines n
              { st with htmlLines := listAssemble st.htmlLines [] run }
              (rs.dropWhile listPred)
          else if isTableLine line then
            let tableLines := line :: rs.takeWhile isTableLine
            goLines n
              { st with htmlLines := st.htmlLines ++ [parse_table tableLines] }
              (rs.dropWhile isTableLine)
          else if (bqMatch line).isSome then
            let run := raw :: rs.takeWhile bqPred
            let items := run.map (fun l =>
              inline_parse (escape_html (strip ((bqMatch (rstrip l)).getD []))))
            goLines n
              { st with htmlLines := st.htmlLines ++
                  [str "<blockquote>" ++ List.intercalate (str " ") items ++
                   str "</blockquote>"] }
              (rs.dropWhile bqPred)
          else if isHR line then
            goLines n { st with htmlLines := st.htmlLines ++ [str "<hr>"] } rs
          else
            let para := raw :: rs.takeWhile paraPred
            let parsed := buildPara para
            let meta :=
              if optFalsy st.meta then some (computeMeta parsed) else st.meta
            goLines n
              { st with meta := meta,
                        htmlLines := st.htmlLines ++
                          [str "<p>" ++ parsed ++ str "</p>"] }
              (rs.dropWhile paraPred)

/-- The record returned by `md_to_html`. -/
structure MDResult where
  title : String
  meta : String
  body : String
deriving Repr, DecidableEq

/-- `md_to_html`: split into lines, run the scanning loop, then apply
the title fallback (`if not title: title = "Lesson"`) and the
`meta_desc or ""` default, and join the fragments with newlines. -/
def md_to_html (md : String) : MDResult :=
  let lines := splitlines md.data
  let st := goLines lines.length initSt lines
  { title :=
      match st.title with
      | some t => if t.isEmpty then "Lesson" else ⟨t⟩
      | none => "Lesson",
    meta := ⟨st.meta.getD []⟩,
    body := ⟨List.intercalate (str "\n") st.htmlLines⟩ }

/-- `render_full_html` (lines 300-341 of src/app.py): the full HTML
document around a conversion result.  `title` and `meta` are re-escaped
with `escape_html` (quotes untouched); the meta value is the empty
string when the parsed meta is falsy, which coincides with
`escape_html` of the empty string; `css_href` and `canonical` default
to absent.  The f-string is assembled with its insertion points kept as
separate concatenation operands. -/
def render_full_html (parsed : MDResult) (css_href canonical : Option Str) :
    Str :=
  let title := escape_html (str parsed.title)
  let metaVal :=
    if (str parsed.meta).isEmpty then [] else escape_html (str parsed.meta)
  let body := str parsed.body
  let css_link :=
    match css_href with
    | some h =>
      if h.isEmpty then []
      else str "<link rel=\"stylesheet\" href=\"" ++ escape_html h ++ str "\">"
    | none => []
  let canonical_tag :=
    match canonical with
    | some u =>
      if u.isEmpty then []
      else str "<link rel=\"canonical\" href=\"" ++ escape_html u ++ str "\">"
    | none => []
  str "<!doctype html>\n<html lang=\"en\">\n\n<head>\n<meta charset=\"utf-8\">\n<meta name=\"viewport\" content=\"width=device-width, initial-scale=1\">\n<title>" ++
  title ++ str "</title>\n" ++
  (str "<meta name=\"description\" content=\"" ++ metaVal ++ str "\">") ++
  str "\n<meta name=\"robots\" content=\"index, follow\">\n" ++
  canonical_tag ++ str "\n" ++ css_link ++ str "\n" ++
  (str "<meta property=\"og:title\" content=\"" ++ title ++ str "\">") ++
  str "\n" ++
  (str "<meta property=\"og:description\" content=\"" ++ metaVal ++ str "\">") ++
  str "\n<meta property=\"og:type\" content=\"article\">\n<meta name=\"twitter:card\" content=\"summary\">\n</head>\n\n<body>\n<main>\n" ++
  body ++ str "\n</main>\n</body>\n\n</html>"

/-- Specification-side scan characterising the final title: walk the
lines with the fence flag, skip fenced regions, and return the stripped
text of the first heading line whose stripped text is non-empty (a
heading with empty text leaves the Python `title` falsy, so it does not
settle the title). -/
def titleScan : Bool → List Str → Option Str
  | _, [] => none
  | inside, raw :: rs =>
    let line := rstrip raw
    if (fenceMatch line).isSome then titleScan (!inside) rs
    else if inside then titleScan inside rs
    else
      match headingMatch line with
      | some (_, t0) =>
        if (strip t0).isEmpty then titleScan inside rs else some (strip t0)
      | none => titleScan inside rs

/-- Specification-side title of a document: the first non-empty heading
text outside fenced code, or the fallback `"Lesson"`. -/
def titleSpec (md : String) : String :=
  match titleScan false (splitlines md.data) with
  | some t => (⟨t⟩ : String)
  | none => "Lesson"

/-- Specification-side scan characterising the first paragraph block:
it mirrors the branch structure of `goLines` (same fuel, same branch
tests, same rest-of-input in every branch) but carries only the fence
flag and returns the collected lines of the first paragraph run, or
`none` when no paragraph block is ever reached. -/
def metaScan : Nat → Bool → List Str → Option (List Str)
  | 0, _, _ => none
  | _ + 1, _, [] => none
  | n + 1, inside, raw :: rs =>
    let line := rstrip raw
    match fenceMatch line with
    | some _ => if inside then metaScan n false rs else metaScan n true rs
    | none =>
      if inside then metaScan n true rs
      else if (strip line).isEmpty then metaScan n false rs
      else
        match headingMatch line with
        | some _ => metaScan n false rs
        | none =>
          if (ulMatch line).isSome || (olMatch line).isSome then
            metaScan n false (rs.dropWhile listPred)
          else if isTableLine line then
            metaScan n false (rs.dropWhile isTableLine)
          else if (bqMatch line).isSome then
            metaScan n false (rs.dropWhile bqPred)
          else if isHR line then metaScan n false rs
          else some (raw :: rs.takeWhile paraPred)

/-- Total number of occurrences of a pattern across a fragment list. -/
def countTotal (p : Str) (hs : List Str) : Nat := (hs.map (countSub p)).sum

/-- Modelled from the spec: a row that is "structurally a separator
row" (the alignment row of a Markdown table, which the spec says is the
only second row that gets skipped) — every cell consists of dashes with
optional colons, with at least one dash. -/
def isSeparatorRow (l : Str) : Bool :=
  ((splitOnChar '|' (stripPipes l)).map strip).all
    (fun cell =>
      !cell.isEmpty && cell.all (fun c => c == '-' || c == ':') &&
      cell.any (fun c => c == '-'))

/-- The six list tags whose open/close balance the nesting claim is
about. -/
def listTags : List Str :=
  [str "<ul>", str "</ul>", str "<ol>", str "</ol>", str "<li>", str "</li>"]

/-- First characters of the tag names the inline pipeline can insert
after a `<`: `strong`, `em`, `code`, `del`, `a href=...`, `img src=...`. -/
def tagHead (c : Char) : Bool :=
  c == 's' || c == 'e' || c == 'c' || c == 'd' || c == 'a' || c == 'i'

/-- First characters of the tag names the inline pipeline can insert
after a `</`: `strong`, `em`, `code`, `del`, `a`. -/
def tagHeadClose (c : Char) : Bool :=
  c == 's' || c == 'e' || c == 'c' || c == 'd' || c == 'a'

/-- What may follow a `<` in a string produced by the inline pipeline:
either one of the inserted tag names or a `/` followed by one of the
inserted closing tag names; in particular never `l`, `u` or `o`, and a
`<` or `</` is never the end of the string. -/
def safeAfterLt : Str → Bool
  | [] => false
  | d :: rest =>
    if d = '/' then
      match rest with
      | [] => false
      | d2 :: _ => tagHeadClose d2
    else tagHead d

/-- Invariant of the inline pipeline: every `<` in the string is the
start of one of the inserted tag literals (checked through its one- or
two-character lookahead).  It rules out any occurrence of the list tags
`<ul>`, `<ol>`, `<li>` and their closers inside rendered inline text. -/
def tagSafe : Str → Bool
  | [] => true
  | c :: rest => (if c = '<' then safeAfterLt rest else true) && tagSafe rest

/-- A plain-text character in the sense of the description claim:
an ASCII letter, an ASCII digit or a space, by code point. -/
def plainChar (c : Char) : Bool :=
  let n := c.toNat
  (65 ≤ n && n ≤ 90) || (97 ≤ n && n ≤ 122) || (48 ≤ n && n ≤ 57) ||
  n == 32

/-- An ASCII letter, by code point. -/
def asciiLetter (c : Char) : Bool :=
  let n := c.toNat
  (65 ≤ n && n ≤ 90) || (97 ≤ n && n ≤ 122)

/-- A line of plain paragraph text: non-empty, made of letters, digits
and spaces, starting with a letter and not ending in a space — such a
line matches none of the block patterns and renders to itself. -/
def plainPara (s : Str) : Bool :=
  match s with
  | [] => false
  | c :: _ =>
    asciiLetter c && s.all plainChar && !(s.getLast?.getD ' ' == ' ')


lemma escape_cons (c : Char) (cs : Str) :
    escape_html (c :: cs) = escChar c ++ escape_html cs := by
  simp [escape_html]

lemma escChar_no_angle (c : Char) :
    (escChar c).all (fun d => !(d == '<' || d == '>')) = true := by
  unfold escChar
  split
  · decide
  · split
    · decide
    · split
      · decide
      · rename_i h1 h2 h3
        simp_all

/-- C2 (amended): `escape_html` removes every `<` and `>` from its input
(so text routed through it can never contribute a raw angle bracket to the
body); the table assembler, however, does not route cell text through it —
see the counterexample `table_script_cex`. -/
theorem escape_html_removes_angles (s : Str) :
    (escape_html s).all (fun c => !(c == '<' || c == '>')) = true := by
  induction s with
  | nil => rfl
  | cons c cs ih =>
    rw [escape_cons, List.all_append, escChar_no_angle c, ih]
    rfl

/-- C2 (counterexample): a `<script>` tag inside a table cell reaches the
returned body verbatim — `parse_table` emits cell text without
HTML-escaping, so raw user `<`/`>` appear in its fragment. -/
theorem table_script_cex :
    (md_to_html "| <script>alert(1) |").body =
      "<table>\n<thead><tr><th><script>alert(1)</th></tr></thead>\n<tbody></tbody></table>" ∧
    countSub (str "<script>") ((md_to_html "| <script>alert(1) |").body.data) = 1 := by
  constructor
  · decide
  · decide

/-- C7 (confirmed): on the escaped input `**a** *b*` the bold pass runs
before the italic pass, so the rendering is
`<strong>a</strong> <em>b</em>`. -/
theorem bold_before_italic :
    inline_parse (escape_html (str "**a** *b*")) =
      str "<strong>a</strong> <em>b</em>" := by decide

/-- C9 (counterexample): escaping is not idempotent —
`escape_html (escape_html "&") = "&amp;amp;"` differs from
`escape_html "&" = "&amp;"`. -/
theorem escape_not_idem_cex :
    (escape_html (escape_html (str "&")) == escape_html (str "&")) = false ∧
    escape_html (str "&") = str "&amp;" ∧
    escape_html (escape_html (str "&")) = str "&amp;amp;" := by decide

lemma escChar_id (c : Char) (h : (!(c == '&' || c == '<' || c == '>')) = true) :
    escChar c = [c] := by
  simp only [Bool.not_eq_eq_eq_not, Bool.not_true, Bool.or_eq_false_iff] at h
  simp [escChar, h.1.1, h.1.2, h.2]

lemma escape_id_of_clean (s : Str)
    (h : s.all (fun c => !(c == '&' || c == '<' || c == '>')) = true) :
    escape_html s = s := by
  induction s with
  | nil => rfl
  | cons c cs ih =>
    rw [List.all_cons, Bool.and_eq_true] at h
    rw [escape_cons, escChar_id c h.1, ih h.2]
    rfl

/-- C9 (amended): `escape_html` and `inline_parse` are pure functions of
their input (determinism is definitional), and `escape_html` is the
identity — hence idempotent — exactly on strings without `&`, `<`, `>`;
on a string containing one of those, double escaping differs (see the
counterexample). -/
theorem escape_idem_on_clean (s : Str)
    (h : s.all (fun c => !(c == '&' || c == '<' || c == '>')) = true) :
    escape_html s = s ∧ escape_html (escape_html s) = escape_html s := by
  refine ⟨escape_id_of_clean s h, ?_⟩
  rw [escape_id_of_clean s h]
  exact escape_id_of_clean s h

theorem escape_idem_on_clean_witness :
    escape_html (str "plain text") = str "plain text" ∧
    escape_html (escape_html (str "plain text")) = escape_html (str "plain text") :=
  escape_idem_on_clean (str "plain text") (by decide)

lemma escChar_quote_count (c : Char) :
    (escChar c).count '"' = ([c] : Str).count '"' := by
  unfold escChar
  split
  · rename_i h
    rw [eq_of_beq h]
    decide
  · split
    · rename_i h
      rw [eq_of_beq h]
      decide
    · split
      · rename_i h
        rw [eq_of_beq h]
        decide
      · rfl

/-- C10 (confirmed): `escape_html` never touches double quotes (it is
`html.escape` with `quote=False`), so the number of `"` characters is
preserved; a `"` in a link URL lands verbatim inside the double-quoted
`href` attribute value, terminating it early; and in the full page of
`render_full_html` the description (first paragraph) and og:title
(heading) texts are inserted — after only `escape_html` — directly into
double-quoted `content` attribute values, so quotes in a heading or a
first paragraph also land verbatim inside attribute values, as the two
concrete pages show. -/
theorem quotes_kept_in_attributes :
    (∀ s : Str, (escape_html s).count '"' = s.count '"') ∧
    inline_parse (escape_html (str "[t](u\"x)")) = str "<a href=\"u\"x\">t</a>" ∧
    (∀ r : MDResult, ∃ pre mid post,
      render_full_html r none none =
        pre ++
        (str "<meta name=\"description\" content=\"" ++
          (if (str r.meta).isEmpty then [] else escape_html (str r.meta)) ++
          str "\">") ++
        mid ++
        (str "<meta property=\"og:title\" content=\"" ++
          escape_html (str r.title) ++ str "\">") ++
        post) ∧
    1 ≤ countSub (str "content=\"Say \"hi\"\"")
      (render_full_html (md_to_html "# Say \"hi\"\n\nA \"quoted\" para")
        none none) ∧
    1 ≤ countSub (str "content=\"A \"quoted\" para\"")
      (render_full_html (md_to_html "# Say \"hi\"\n\nA \"quoted\" para")
        none none) := by
  refine ⟨?_, by decide, ?_, by decide, by decide⟩
  · intro s
    induction s with
    | nil => rfl
    | cons c cs ih =>
      rw [escape_cons, List.count_append, escChar_quote_count, ih]
      simp [List.count_cons]
      omega
  · intro r
    refine ⟨str "<!doctype html>\n<html lang=\"en\">\n\n<head>\n<meta charset=\"utf-8\">\n<meta name=\"viewport\" content=\"width=device-width, initial-scale=1\">\n<title>" ++ escape_html (str r.title) ++ str "</title>\n",
      str "\n<meta name=\"robots\" content=\"index, follow\">\n" ++ str "\n" ++ str "\n",
      str "\n" ++ (str "<meta property=\"og:description\" content=\"" ++ (if (str r.meta).isEmpty then [] else escape_html (str r.meta)) ++ str "\">") ++ str "\n<meta property=\"og:type\" content=\"article\">\n<meta name=\"twitter:card\" content=\"summary\">\n</head>\n\n<body>\n<main>\n" ++ str r.body ++ str "\n</main>\n</body>\n\n</html>", ?_⟩
    simp only [render_full_html, List.append_assoc, List.nil_append,
      List.append_nil]

/-- C3 (counterexample): for the spec's own nested example
`"- a\n  - b"` the end-of-run code closes only the innermost `<li>`
before popping all frames, leaving the parent `<li>` unclosed: the body
has two `<li>` but only one `</li>`, so open/close tag counts differ. -/
theorem list_unbalanced_cex :
    (md_to_html "- a\n  - b").body = "<ul>\n<li>a<ul>\n<li>b</li>\n</ul>\n</ul>" ∧
    countSub (str "<li>") ((md_to_html "- a\n  - b").body.data) = 2 ∧
    countSub (str "</li>") ((md_to_html "- a\n  - b").body.data) = 1 := by
  refine ⟨by decide, by decide, by decide⟩

/-- C5 (counterexample): `"#"` is a heading line (it matches
`HEADING_RE`) with empty trimmed text; `if not title` treats the empty
string as unset, so the title falls back to `"Lesson"` although a heading
line exists, and a later heading (`"#\n# hi"`) overwrites it. -/
theorem title_empty_heading_cex :
    (md_to_html "#").title = "Lesson" ∧
    (headingMatch (rstrip (str "#"))).isSome = true ∧
    (md_to_html "#\n# hi").title = "hi" := by
  refine ⟨by decide, by decide, by decide⟩

/-- C4 (counterexample): in a three-row table whose second row `| b |`
is not structurally a separator row, the second row is still skipped:
no `<th>b</th>` or `<td>b</td>` cell appears in the output. -/
theorem table_nonseparator_skipped_cex :
    parse_table [str "| a |", str "| b |", str "| c |"] =
      str "<table>\n<thead><tr><th>a</th></tr></thead>\n<tbody><tr><td>c</td></tr></tbody></table>" ∧
    isSeparatorRow (str "| b |") = false ∧
    countSub (str "<td>b</td>") (parse_table [str "| a |", str "| b |", str "| c |"]) = 0 ∧
    countSub (str "<th>b</th>") (parse_table [str "| a |", str "| b |", str "| c |"]) = 0 := by
  refine ⟨by decide, by decide, by decide, by decide⟩

/-- C4 (amended): the second row is skipped exactly when more than two
rows exist, regardless of its content: with a third row present the
output does not depend on the second row at all, and with exactly two
rows the second row is rendered as a body row (a two-row table renders
the same as the three-row table obtained by inserting any row between
its rows). -/
theorem parse_table_second_row_skipped_iff_three_rows :
    (∀ (l0 x y : Str) (ls : List Str), ls ≠ [] →
      parse_table (l0 :: x :: ls) = parse_table (l0 :: y :: ls)) ∧
    (∀ l0 x l1 : Str, parse_table [l0, l1] = parse_table [l0, x, l1]) := by
  constructor
  · intro l0 x y ls hls
    cases ls with
    | nil => exact absurd rfl hls
    | cons a as => simp [parse_table]
  · intro l0 x l1
    simp [parse_table]

theorem parse_table_second_row_skipped_iff_three_rows_witness :
    parse_table [str "| a |", str "| x |", str "| c |"] =
      parse_table [str "| a |", str "| y |", str "| c |"] :=
  parse_table_second_row_skipped_iff_three_rows.1 (str "| a |") (str "| x |")
    (str "| y |") [str "| c |"] (by decide)



/-- C8 (confirmed): once a fence has been opened (`inside_code` is
true), if no later line matches the fence pattern then the scan consumes
everything, the accumulated code lines are silently discarded (no
fragment is appended) and the fragments, title and meta assembled before
the fence are returned unchanged; totality of `goLines` is by
construction, so nothing is raised. -/
theorem unclosed_fence_discarded (n : Nat) (st : St) (ls : List Str)
    (hin : st.insideCode = true)
    (hf : ∀ l ∈ ls, fenceMatch (rstrip l) = none) :
    (goLines n st ls).htmlLines = st.htmlLines ∧
    (goLines n st ls).title = st.title ∧
    (goLines n st ls).meta = st.meta := by
  induction n generalizing st ls with
  | zero => exact ⟨rfl, rfl, rfl⟩
  | succ n ih =>
    cases ls with
    | nil => exact ⟨rfl, rfl, rfl⟩
    | cons raw rs =>
      have hraw := hf raw (List.mem_cons_self _ _)
      have hrs : ∀ l ∈ rs, fenceMatch (rstrip l) = none :=
        fun l hl => hf l (List.mem_cons_of_mem _ hl)
      simp only [goLines, hraw, hin]
      exact ih _ _ rfl hrs

/-- Witness for `unclosed_fence_discarded` at a concrete state and
concrete lines. -/
theorem unclosed_fence_discarded_witness :
    (goLines 2
      { htmlLines := [str "<p>before</p>"], title := none, meta := none,
        insideCode := true, codeLang := str "py", codeLines := [] }
      [str "lost code", str "more lost"]).htmlLines = [str "<p>before</p>"] ∧
    (goLines 2
      { htmlLines := [str "<p>before</p>"], title := none, meta := none,
        insideCode := true, codeLang := str "py", codeLines := [] }
      [str "lost code", str "more lost"]).title = none ∧
    (goLines 2
      { htmlLines := [str "<p>before</p>"], title := none, meta := none,
        insideCode := true, codeLang := str "py", codeLines := [] }
      [str "lost code", str "more lost"]).meta = none :=
  unclosed_fence_discarded 2 _ _ rfl (by decide)

/- Classification micro-lemmas: which block patterns a line can match,
read off from the first character after the leading whitespace. -/

lemma rstrip_prefix_self (l : Str) : rstrip l <+: l := by
  have h := @List.dropWhile_suffix _ l.reverse pyIsSpace
  have h2 : (List.dropWhile pyIsSpace l.reverse).reverse.reverse <:+ l.reverse := by
    rwa [List.reverse_reverse]
  have h3 := List.reverse_suffix.mp h2
  exact h3

lemma prefix_head (l₁ l₂ : Str) (c : Char) (hp : l₁ <+: l₂)
    (h : l₁.head? = some c) : l₂.head? = some c := by
  rcases hp with ⟨t, rfl⟩
  cases l₁ with
  | nil => simp at h
  | cons a as => simpa using h

lemma dropWhile_head_prefix (p : Char → Bool) (l₁ l₂ : Str) (c : Char)
    (hp : l₁ <+: l₂) (h : (l₁.dropWhile p).head? = some c) :
    (l₂.dropWhile p).head? = some c := by
  rcases hp with ⟨t, rfl⟩
  rw [List.dropWhile_append]
  split
  · rename_i he
    rw [List.isEmpty_iff] at he
    rw [he] at h
    simp at h
  · rw [List.head?_append, h]
    rfl

lemma headingMatch_isSome_iff (l : Str) :
    (headingMatch l).isSome = true ↔ l.head? = some '#' := by
  cases l with
  | nil => simp [headingMatch]
  | cons c cs =>
    by_cases h : c == '#'
    · rw [eq_of_beq h]
      simp [headingMatch, List.takeWhile_cons]
    · simp [headingMatch, List.takeWhile_cons, h]
      intro e
      rw [e] at h
      simp at h

lemma fence_firstNonWs (l : Str) (h : (fenceMatch l).isSome = true) :
    (l.dropWhile pyIsSpace).head? = some '`' := by
  unfold fenceMatch at h
  split at h
  · rename_i rest he
    rw [he]
    rfl
  · simp at h

lemma ul_firstNonWs (l : Str) (h : (ulMatch l).isSome = true) :
    ∃ c, (l.dropWhile pyIsSpace).head? = some c ∧
      (c = '-' ∨ c = '+' ∨ c = '*') := by
  unfold ulMatch at h
  split at h
  · rename_i c rest he
    refine ⟨c, by rw [he]; rfl, ?_⟩
    split at h
    · rename_i hc
      simp only [Bool.or_eq_true, beq_iff_eq] at hc
      tauto
    · simp at h
  · simp at h

lemma ol_firstNonWs (l : Str) (h : (olMatch l).isSome = true) :
    ∃ c, (l.dropWhile pyIsSpace).head? = some c ∧ pyIsDigit c = true := by
  unfold olMatch at h
  by_cases hd : ((l.dropWhile pyIsSpace).takeWhile pyIsDigit).isEmpty
  · rw [if_pos hd] at h
    simp at h
  · rw [if_neg hd] at h
    rcases e : l.dropWhile pyIsSpace with _ | ⟨c, cs⟩
    · rw [e] at hd
      simp at hd
    · refine ⟨c, rfl, ?_⟩
      rw [e, List.takeWhile_cons] at hd
      by_cases hc : pyIsDigit c
      · exact hc
      · rw [if_neg (by simpa using hc)] at hd
        simp at hd

lemma table_firstNonWs (l : Str) (h : isTableLine l = true) :
    (l.dropWhile pyIsSpace).head? = some '|' := by
  unfold isTableLine at h
  split at h
  · rename_i rest he
    rw [he]
    rfl
  · simp at h

lemma bq_head (l : Str) (h : (bqMatch l).isSome = true) :
    l.head? = some '>' := by
  unfold bqMatch at h
  split at h
  · rfl
  · simp at h



lemma head_nonspace_firstNonWs (l : Str) (c : Char) (h : l.head? = some c)
    (hc : pyIsSpace c = false) : (l.dropWhile pyIsSpace).head? = some c := by
  cases l with
  | nil => simp at h
  | cons a as =>
    rw [List.head?_cons, Option.some_inj] at h
    subst h
    rw [List.dropWhile_cons, if_neg (by simp [hc])]
    rfl

lemma fence_rstrip_none (l : Str) (c : Char)
    (h1 : (l.dropWhile pyIsSpace).head? = some c) (h2 : c ≠ '`') :
    fenceMatch (rstrip l) = none := by
  cases e : fenceMatch (rstrip l) with
  | none => rfl
  | some g =>
    have hh := fence_firstNonWs (rstrip l) (by rw [e]; rfl)
    have := dropWhile_head_prefix pyIsSpace _ _ _ (rstrip_prefix_self l) hh
    rw [h1, Option.some_inj] at this
    exact absurd this h2

lemma heading_rstrip_none (l : Str) (c : Char)
    (h1 : (l.dropWhile pyIsSpace).head? = some c) (h2 : c ≠ '#') :
    headingMatch (rstrip l) = none := by
  cases e : headingMatch (rstrip l) with
  | none => rfl
  | some g =>
    have hh := (headingMatch_isSome_iff (rstrip l)).mp (by rw [e]; rfl)
    have h3 : l.head? = some '#' := prefix_head _ _ _ (rstrip_prefix_self l) hh
    have h4 := head_nonspace_firstNonWs l '#' h3 (by decide)
    rw [h1, Option.some_inj] at h4
    exact absurd h4 h2

lemma skip_of_listPred (l : Str) (h : listPred l = true) :
    fenceMatch (rstrip l) = none ∧ headingMatch (rstrip l) = none := by
  unfold listPred at h
  rw [Bool.or_eq_true] at h
  rcases h with h | h
  · obtain ⟨c, hc, hm⟩ := ul_firstNonWs l h
    have hne : c ≠ '`' := by rcases hm with rfl | rfl | rfl <;> decide
    have hne2 : c ≠ '#' := by rcases hm with rfl | rfl | rfl <;> decide
    exact ⟨fence_rstrip_none l c hc hne, heading_rstrip_none l c hc hne2⟩
  · obtain ⟨c, hc, hd⟩ := ol_firstNonWs l h
    have hne : c ≠ '`' := by intro e; subst e; exact absurd hd (by decide)
    have hne2 : c ≠ '#' := by intro e; subst e; exact absurd hd (by decide)
    exact ⟨fence_rstrip_none l c hc hne, heading_rstrip_none l c hc hne2⟩

lemma skip_of_table (l : Str) (h : isTableLine l = true) :
    fenceMatch (rstrip l) = none ∧ headingMatch (rstrip l) = none := by
  have hc := table_firstNonWs l h
  exact ⟨fence_rstrip_none l '|' hc (by decide),
         heading_rstrip_none l '|' hc (by decide)⟩

lemma skip_of_bqPred (l : Str) (h : bqPred l = true) :
    fenceMatch (rstrip l) = none ∧ headingMatch (rstrip l) = none := by
  unfold bqPred at h
  have hh := bq_head (rstrip l) h
  constructor
  · cases e : fenceMatch (rstrip l) with
    | none => rfl
    | some g =>
      have h2 := fence_firstNonWs (rstrip l) (by rw [e]; rfl)
      have h3 := head_nonspace_firstNonWs (rstrip l) '>' hh (by decide)
      rw [h3, Option.some_inj] at h2
      exact absurd h2 (by decide)
  · cases e : headingMatch (rstrip l) with
    | none => rfl
    | some g =>
      have h2 := (headingMatch_isSome_iff (rstrip l)).mp (by rw [e]; rfl)
      rw [hh, Option.some_inj] at h2
      exact absurd h2 (by decide)

lemma fence_isSome_iff (l : Str) :
    (fenceMatch l).isSome = true ↔
      ∃ rest, l.dropWhile pyIsSpace = '`' :: '`' :: '`' :: rest := by
  unfold fenceMatch
  split
  · rename_i rest he
    simp only [Option.isSome_some, true_iff]
    exact ⟨rest, he⟩
  · rename_i hne
    simp only [Option.isSome_none, Bool.false_eq_true, false_iff, not_exists]
    intro rest hrest
    exact hne rest hrest

lemma skip_of_paraPred (l : Str) (h : paraPred l = true) :
    fenceMatch (rstrip l) = none ∧ headingMatch (rstrip l) = none := by
  unfold paraPred at h
  simp only [Bool.and_eq_true, Option.isNone_iff_eq_none] at h
  obtain ⟨⟨⟨⟨hb, hhead⟩, hu⟩, ho⟩, hfence⟩ := h
  constructor
  · cases e : fenceMatch (rstrip l) with
    | none => rfl
    | some g =>
      obtain ⟨rest, hrest⟩ := (fence_isSome_iff (rstrip l)).mp (by rw [e]; rfl)
      have hpref : rstrip l <+: l := rstrip_prefix_self l
      obtain ⟨t, ht⟩ := hpref
      have : l.dropWhile pyIsSpace = '`' :: '`' :: '`' :: (rest ++ t) := by
        rw [← ht, List.dropWhile_append, hrest]
        rw [if_neg (by simp)]
        rfl
      have hfl : (fenceMatch l).isSome = true :=
        (fence_isSome_iff l).mpr ⟨rest ++ t, this⟩
      rw [hfence] at hfl
      simp at hfl
  · cases e : headingMatch (rstrip l) with
    | none => rfl
    | some g =>
      have hh := (headingMatch_isSome_iff (rstrip l)).mp (by rw [e]; rfl)
      have h3 : l.head? = some '#' := prefix_head _ _ _ (rstrip_prefix_self l) hh
      have h4 : (headingMatch l).isSome = true :=
        (headingMatch_isSome_iff l).mpr h3
      rw [hhead] at h4
      simp at h4

lemma dropWhile_self_idem (p : Char → Bool) (l : Str) :
    List.dropWhile p (List.dropWhile p l) = List.dropWhile p l := by
  induction l with
  | nil => rfl
  | cons a as ih =>
    rw [List.dropWhile_cons]
    split
    · exact ih
    · rename_i hp
      rw [List.dropWhile_cons, if_neg hp]

lemma rstrip_idem (l : Str) : rstrip (rstrip l) = rstrip l := by
  unfold rstrip
  rw [List.reverse_reverse, dropWhile_self_idem]

lemma blank_not_heading (l : Str)
    (hb : (strip (rstrip l)).isEmpty = true) :
    headingMatch (rstrip l) = none := by
  cases e : headingMatch (rstrip l) with
  | none => rfl
  | some g =>
    have hh := (headingMatch_isSome_iff (rstrip l)).mp (by rw [e]; rfl)
    have : (strip (rstrip l)).head? = some '#' := by
      unfold strip
      rw [rstrip_idem]
      exact head_nonspace_firstNonWs (rstrip l) '#' hh (by decide)
    rw [List.isEmpty_iff] at hb
    rw [hb] at this
    simp at this

lemma titleScan_skip (ls rest : List Str)
    (h : ∀ l ∈ ls,
      fenceMatch (rstrip l) = none ∧ headingMatch (rstrip l) = none) :
    titleScan false (ls ++ rest) = titleScan false rest := by
  induction ls with
  | nil => rfl
  | cons a as ih =>
    have ha := h a (List.mem_cons_self _ _)
    rw [List.cons_append]
    simp only [titleScan, ha.1, ha.2, Option.isSome_none, Bool.false_eq_true,
      if_false, Bool.false_eq_true]
    exact ih (fun l hl => h l (List.mem_cons_of_mem _ hl))



lemma title_stable (n : Nat) (st : St) (rest : List Str)
    (h : optFalsy st.title = false) :
    (goLines n st rest).title = st.title := by
  induction n generalizing st rest with
  | zero => rfl
  | succ n ih =>
    cases rest with
    | nil => rfl
    | cons raw rs =>
      simp only [goLines]
      split
      · -- fence some
        split
        · exact ih _ _ h
        · exact ih _ _ h
      · -- fence none
        split
        · exact ih _ _ h
        · split
          · exact ih _ _ h
          · split
            · -- heading some
              rename_i level t0 heq
              refine (ih _ _ ?_).trans ?_
              · show optFalsy (if optFalsy st.title then some (strip t0) else st.title) = false
                rw [h]
                exact h
              · show (if optFalsy st.title then some (strip t0) else st.title) = st.title
                simp [h]
            · -- heading none
              split
              · exact ih _ _ h
              · split
                · exact ih _ _ h
                · split
                  · exact ih _ _ h
                  · split
                    · exact ih _ _ h
                    · exact ih _ _ h

lemma meta_stable (n : Nat) (st : St) (rest : List Str)
    (h : optFalsy st.meta = false) :
    (goLines n st rest).meta = st.meta := by
  induction n generalizing st rest with
  | zero => rfl
  | succ n ih =>
    cases rest with
    | nil => rfl
    | cons raw rs =>
      simp only [goLines]
      split
      · split
        · exact ih _ _ h
        · exact ih _ _ h
      · split
        · exact ih _ _ h
        · split
          · exact ih _ _ h
          · split
            · exact ih _ _ h
            · split
              · exact ih _ _ h
              · split
                · exact ih _ _ h
                · split
                  · exact ih _ _ h
                  · split
                    · exact ih _ _ h
                    · -- paragraph branch
                      refine (ih _ _ ?_).trans ?_
                      · show optFalsy (if optFalsy st.meta then
                          some (computeMeta (buildPara (raw :: rs.takeWhile paraPred)))
                          else st.meta) = false
                        rw [h]
                        exact h
                      · show (if optFalsy st.meta then
                          some (computeMeta (buildPara (raw :: rs.takeWhile paraPred)))
                          else st.meta) = st.meta
                        simp [h]



lemma titleScan_dropWhile (pred : Str → Bool)
    (hpred : ∀ l, pred l = true →
      fenceMatch (rstrip l) = none ∧ headingMatch (rstrip l) = none)
    (rs : List Str) :
    titleScan false rs = titleScan false (rs.dropWhile pred) := by
  conv_lhs => rw [← @List.takeWhile_append_dropWhile _ pred rs]
  exact titleScan_skip _ _ (fun l hl => hpred l (List.mem_takeWhile_imp hl))

lemma dropWhile_length_le (pred : Str → Bool) (rs : List Str) :
    (rs.dropWhile pred).length ≤ rs.length :=
  (List.dropWhile_suffix pred).length_le

lemma title_main (n : Nat) (st : St) (rest : List Str)
    (hlen : rest.length ≤ n) (hf : optFalsy st.title = true) :
    (∀ t, titleScan st.insideCode rest = some t →
      (goLines n st rest).title = some t ∧ t.isEmpty = false) ∧
    (titleScan st.insideCode rest = none →
      optFalsy (goLines n st rest).title = true) := by
  induction n generalizing st rest with
  | zero =>
    have : rest = [] := List.eq_nil_of_length_eq_zero (Nat.le_zero.mp hlen)
    subst this
    refine ⟨fun t ht => by simp [titleScan] at ht, fun _ => hf⟩
  | succ n ih =>
    cases rest with
    | nil => exact ⟨fun t ht => by simp [titleScan] at ht, fun _ => hf⟩
    | cons raw rs =>
      have hlen' : rs.length ≤ n := Nat.le_of_succ_le_succ hlen
      rcases hfence : fenceMatch (rstrip raw) with _ | g
      · -- fence does not match
        cases hin : st.insideCode with
        | true =>
          -- inside a code block: the raw line is accumulated and skipped
          simp only [goLines, titleScan, hfence, hin, Option.isSome_none,
            Bool.false_eq_true, if_false, if_true]
          simpa [hin] using ih { st with codeLines := st.codeLines ++ [raw] } rs hlen' hf
        | false =>
          cases hblank : (strip (rstrip raw)).isEmpty with
          | true =>
            have hh := blank_not_heading raw hblank
            simp only [goLines, titleScan, hfence, hin, hblank, hh,
              Option.isSome_none, Bool.false_eq_true, if_false, if_true]
            simpa [hin] using ih st rs hlen' hf
          | false =>
            rcases hh : headingMatch (rstrip raw) with _ | ⟨level, t0⟩
            · -- not a heading: list / table / blockquote / hr / paragraph
              simp only [goLines, titleScan, hfence, hin, hblank, hh,
                Option.isSome_none, Bool.false_eq_true, if_false]
              cases hl : ((ulMatch (rstrip raw)).isSome ||
                  (olMatch (rstrip raw)).isSome) with
              | true =>
                simp only [hl, if_true]
                rw [titleScan_dropWhile listPred skip_of_listPred rs]
                simpa [hin] using ih { st with htmlLines := listAssemble st.htmlLines [] (raw :: rs.takeWhile listPred) } (rs.dropWhile listPred) (le_trans (dropWhile_length_le _ _) hlen') hf
              | false =>
                simp only [hl, Bool.false_eq_true, if_false]
                cases ht : isTableLine (rstrip raw) with
                | true =>
                  simp only [ht, if_true]
                  rw [titleScan_dropWhile isTableLine skip_of_table rs]
                  simpa [hin] using ih { st with htmlLines := st.htmlLines ++ [parse_table (rstrip raw :: rs.takeWhile isTableLine)] } (rs.dropWhile isTableLine) (le_trans (dropWhile_length_le _ _) hlen') hf
                | false =>
                  simp only [ht, Bool.false_eq_true, if_false]
                  cases hbq : (bqMatch (rstrip raw)).isSome with
                  | true =>
                    simp only [hbq, if_true]
                    rw [titleScan_dropWhile bqPred skip_of_bqPred rs]
                    simpa [hin] using ih { st with htmlLines := st.htmlLines ++ [str "<blockquote>" ++ List.intercalate (str " ") ((raw :: rs.takeWhile bqPred).map (fun l => inline_parse (escape_html (strip ((bqMatch (rstrip l)).getD []))))) ++ str "</blockquote>"] } (rs.dropWhile bqPred) (le_trans (dropWhile_length_le _ _) hlen') hf
                  | false =>
                    simp only [hbq, Bool.false_eq_true, if_false]
                    cases hhr : isHR (rstrip raw) with
                    | true =>
                      simp only [hhr, if_true]
                      simpa [hin] using ih { st with htmlLines := st.htmlLines ++ [str "<hr>"] } rs hlen' hf
                    | false =>
                      simp only [hhr, Bool.false_eq_true, if_false]
                      rw [titleScan_dropWhile paraPred skip_of_paraPred rs]
                      simpa [hin] using ih { st with meta := if optFalsy st.meta then some (computeMeta (buildPara (raw :: rs.takeWhile paraPred))) else st.meta, htmlLines := st.htmlLines ++ [str "<p>" ++ buildPara (raw :: rs.takeWhile paraPred) ++ str "</p>"] } (rs.dropWhile paraPred) (le_trans (dropWhile_length_le _ _) hlen') hf
            · -- heading
              simp only [goLines, titleScan, hfence, hin, hblank, hh,
                Option.isSome_none, Bool.false_eq_true, if_false, hf, if_true]
              cases hemp : (strip t0).isEmpty with
              | true =>
                simp only [hemp, if_true]
                have := ih { st with title := some (strip t0), htmlLines := st.htmlLines ++ [str "<h" ++ [levelChar level] ++ str ">" ++ inline_parse (escape_html (strip t0)) ++ str "</h" ++ [levelChar level] ++ str ">"] } rs hlen' (by simp [optFalsy, hemp])
                simpa [hin] using this
              | false =>
                simp only [hemp, Bool.false_eq_true, if_false]
                refine ⟨fun t ht => ?_, fun ht => by simp at ht⟩
                rw [Option.some_inj] at ht
                subst ht
                have hstable := title_stable n { st with title := some (strip t0), htmlLines := st.htmlLines ++ [str "<h" ++ [levelChar level] ++ str ">" ++ inline_parse (escape_html (strip t0)) ++ str "</h" ++ [levelChar level] ++ str ">"] } rs (by simp [optFalsy, hemp])
                refine ⟨?_, hemp⟩
                simpa [hin] using hstable
      · -- fence matches: toggle the inside flag
        cases hin : st.insideCode with
        | true =>
          simp only [goLines, titleScan, hfence, hin, Option.isSome_some,
            if_true]
          simpa [hin] using ih { st with insideCode := false, htmlLines := st.htmlLines ++ [fenceFragment st] } rs hlen' hf
        | false =>
          simp only [goLines, titleScan, hfence, hin, Option.isSome_some,
            if_true]
          simpa [hin] using ih { st with insideCode := true, codeLang := strip g, codeLines := [] } rs hlen' hf



/-- C5 (amended): the returned title is exactly the stripped text of the
first heading line, outside fenced code, whose stripped text is
non-empty — an empty-text heading does not settle the title (so a later
heading can still set it) — and the fallback `"Lesson"` is returned
exactly when no such heading exists. -/
theorem title_eq_first_nonempty_heading (md : String) :
    (md_to_html md).title = titleSpec md := by
  simp only [md_to_html, titleSpec]
  have h := title_main (splitlines md.data).length initSt (splitlines md.data)
    le_rfl rfl
  rcases e : titleScan false (splitlines md.data) with _ | t
  · have h2 := h.2 e
    rcases e2 : (goLines (splitlines md.data).length initSt
        (splitlines md.data)).title with _ | t2
    · simp [e2]
    · rw [e2] at h2
      simp only [optFalsy] at h2
      simp [e2, h2]
  · have h1 := h.1 t e
    simp [h1.1, h1.2]

/-- C1 (confirmed): conversion is a total function by construction (the
fuel is the line count and every iteration consumes a line), and for
every input string the returned record has a non-empty title: either the
fixed fallback `"Lesson"` or the text of the heading that set it (the
first heading with non-empty stripped text outside fenced code); the
body and description are always strings (empty at worst). -/
theorem convert_total_title_nonempty (md : String) :
    ((md_to_html md).title.data.isEmpty = false) ∧
    ((md_to_html md).title = "Lesson" ∨
      ∃ t, titleScan false (splitlines md.data) = some t ∧
        (md_to_html md).title = (⟨t⟩ : String)) := by
  simp only [md_to_html]
  have h := title_main (splitlines md.data).length initSt (splitlines md.data)
    le_rfl rfl
  rcases e : titleScan false (splitlines md.data) with _ | t
  · have h2 := h.2 e
    rcases e2 : (goLines (splitlines md.data).length initSt
        (splitlines md.data)).title with _ | t2
    · simp [e2]
    · rw [e2] at h2
      simp only [optFalsy] at h2
      simp [e2, h2]
  · have h1 := h.1 t e
    refine ⟨by simp [h1.1, h1.2], Or.inr ⟨t, rfl, by simp [h1.1, h1.2]⟩⟩



lemma splitlinesAux_cons (c : Char) (rest acc : Str) (hc : c ≠ '\r') :
    splitlinesAux (c :: rest) acc =
      if isLineBreak c then acc.reverse :: splitlinesAux rest []
      else splitlinesAux rest (c :: acc) := by
  rw [splitlinesAux.eq_def]
  split
  · rename_i heq
    exact absurd heq.symm (by simp)
  · rename_i rest2 heq
    rw [List.cons.injEq] at heq
    exact absurd heq.1 hc
  · rename_i c2 rest2 hno heq
    rw [List.cons.injEq] at heq
    rw [heq.1, heq.2]


lemma splitlinesAux_break_free_append (s t acc : Str)
    (h : ∀ c ∈ s, isLineBreak c = false) :
    splitlinesAux (s ++ '\n' :: t) acc =
      (acc.reverse ++ s) :: splitlinesAux t [] := by
  induction s generalizing acc with
  | nil =>
    rw [List.nil_append, splitlinesAux_cons '\n' t acc (by decide),
      if_pos (by decide)]
    simp
  | cons c cs ih =>
    have hc := h c (List.mem_cons_self _ _)
    have hcr : c ≠ '\r' := by
      intro e
      rw [e] at hc
      simp [isLineBreak] at hc
    rw [List.cons_append, splitlinesAux_cons c _ acc hcr, if_neg (by simp [hc])]
    rw [ih (c :: acc) (fun d hd => h d (List.mem_cons_of_mem _ hd))]
    simp

lemma splitlines_para_head (s t : Str)
    (h : ∀ c ∈ s, isLineBreak c = false) :
    splitlines (s ++ '\n' :: t) = s :: splitlines t := by
  unfold splitlines
  rw [splitlinesAux_break_free_append s t [] h]
  simp

-- identity lemmas for the inline pipeline on trigger-free text

lemma subPass_id (tryAt : Str → Option (Str × Str)) (n : Nat) (cs : Str)
    (h : ∀ c cs2, (c :: cs2) <:+ cs → tryAt (c :: cs2) = none) :
    subPass tryAt n cs = cs := by
  induction n generalizing cs with
  | zero => rfl
  | succ n ih =>
    cases cs with
    | nil => rfl
    | cons c cs2 =>
      simp only [subPass, h c cs2 (List.suffix_refl _)]
      rw [ih cs2 (fun d ds hs => h d ds (hs.trans (List.suffix_cons c cs2)))]

lemma tryImg_none (c : Char) (cs : Str) (h : c ≠ '!') :
    tryImg (c :: cs) = none := by
  simp [tryImg, h]

lemma tryLink_none (c : Char) (cs : Str) (h : c ≠ '[') :
    tryLink (c :: cs) = none := by
  simp [tryLink, h]

lemma tryCode_none (c : Char) (cs : Str) (h : c ≠ '`') :
    tryCode (c :: cs) = none := by
  simp [tryCode, h]

lemma try2_none (m : Char) (a b : Str) (c : Char) (cs : Str) (h : c ≠ m) :
    try2 m a b (c :: cs) = none := by
  simp [try2, h]

lemma tryItalic_none (c : Char) (cs : Str) (h : c ≠ '*') :
    tryItalic (c :: cs) = none := by
  simp [tryItalic, h]

lemma inline_parse_id (s : Str)
    (h : ∀ c ∈ s, c ≠ '!' ∧ c ≠ '[' ∧ c ≠ '`' ∧ c ≠ '*' ∧ c ≠ '~') :
    inline_parse s = s := by
  have hmem : ∀ (c : Char) (cs2 : Str), (c :: cs2) <:+ s → c ∈ s := by
    intro c cs2 ⟨t, ht⟩
    rw [← ht]
    simp
  simp only [inline_parse]
  rw [subPass_id tryImg _ s
      (fun c cs2 hs => tryImg_none c cs2 (h c (hmem c cs2 hs)).1),
    subPass_id tryLink _ s
      (fun c cs2 hs => tryLink_none c cs2 (h c (hmem c cs2 hs)).2.1),
    subPass_id tryCode _ s
      (fun c cs2 hs => tryCode_none c cs2 (h c (hmem c cs2 hs)).2.2.1),
    subPass_id tryBold _ s
      (fun c cs2 hs => try2_none '*' _ _ c cs2 (h c (hmem c cs2 hs)).2.2.2.1),
    subPass_id tryItalic _ s
      (fun c cs2 hs => tryItalic_none c cs2 (h c (hmem c cs2 hs)).2.2.2.1),
    subPass_id tryStrike _ s
      (fun c cs2 hs => try2_none '~' _ _ c cs2 (h c (hmem c cs2 hs)).2.2.2.2)]

lemma stripTags_id (n : Nat) (s : Str) (h : ∀ c ∈ s, c ≠ '<') :
    stripTags n s = s := by
  induction n generalizing s with
  | zero => rfl
  | succ n ih =>
    cases s with
    | nil => rfl
    | cons c cs =>
      have hc : (c == '<') = false := by
        simpa using h c (List.mem_cons_self _ _)
      simp only [stripTags, hc, Bool.false_eq_true, if_false]
      rw [ih cs (fun d hd => h d (List.mem_cons_of_mem _ hd))]

lemma pyUnescape_id (n : Nat) (s : Str) (h : ∀ c ∈ s, c ≠ '&') :
    pyUnescape n s = s := by
  induction n generalizing s with
  | zero => rfl
  | succ n ih =>
    cases s with
    | nil => rfl
    | cons c cs =>
      have hc : (c == '&') = false := by
        simpa using h c (List.mem_cons_self _ _)
      simp only [pyUnescape, hc, Bool.false_eq_true, if_false]
      rw [ih cs (fun d hd => h d (List.mem_cons_of_mem _ hd))]


lemma safeAfterLt_append (a b : Str) (h : safeAfterLt a = true) :
    safeAfterLt (a ++ b) = true := by
  cases a with
  | nil => simp [safeAfterLt] at h
  | cons d a' =>
    rw [List.cons_append]
    simp only [safeAfterLt] at h ⊢
    by_cases hd : d = '/'
    · rw [if_pos hd] at h ⊢
      cases a' with
      | nil => simp at h
      | cons d2 a'' => simpa using h
    · rw [if_neg hd] at h ⊢
      exact h

lemma tagSafe_append (a b : Str) (ha : tagSafe a = true)
    (hb : tagSafe b = true) : tagSafe (a ++ b) = true := by
  induction a with
  | nil => simpa using hb
  | cons c a' ih =>
    rw [List.cons_append]
    simp only [tagSafe, Bool.and_eq_true] at ha ⊢
    refine ⟨?_, ih ha.2⟩
    by_cases hc : c = '<'
    · rw [if_pos hc] at ha ⊢
      exact safeAfterLt_append a' b ha.1
    · rw [if_neg hc]

lemma tagSafe_right (a b : Str) (h : tagSafe (a ++ b) = true) :
    tagSafe b = true := by
  induction a with
  | nil => simpa using h
  | cons c a' ih =>
    rw [List.cons_append] at h
    simp only [tagSafe, Bool.and_eq_true] at h
    exact ih h.2

lemma tagSafe_of_suffix (b s : Str) (hs : b <:+ s) (h : tagSafe s = true) :
    tagSafe b = true := by
  obtain ⟨a, rfl⟩ := hs
  exact tagSafe_right a b h

lemma tagSafe_of_no_lt (s : Str) (h : ∀ c ∈ s, c ≠ '<') :
    tagSafe s = true := by
  induction s with
  | nil => rfl
  | cons c cs ih =>
    simp only [tagSafe, Bool.and_eq_true]
    refine ⟨?_, ih (fun d hd => h d (List.mem_cons_of_mem _ hd))⟩
    rw [if_neg (h c (List.mem_cons_self _ _))]

lemma escape_no_lt (t : Str) : ∀ c ∈ escape_html t, c ≠ '<' := by
  induction t with
  | nil => intro c hc; simp [escape_html] at hc
  | cons a as ih =>
    intro c hc
    rw [escape_cons] at hc
    rcases List.mem_append.mp hc with h1 | h2
    · have := List.all_eq_true.mp (escChar_no_angle a) c h1
      simp only [Bool.not_eq_eq_eq_not, Bool.not_true, Bool.or_eq_false_iff,
        beq_eq_false_iff_ne, ne_eq] at this
      exact this.1
    · exact ih c h2

lemma escape_tagSafe (t : Str) : tagSafe (escape_html t) = true :=
  tagSafe_of_no_lt _ (escape_no_lt t)

lemma safeAfterLt_left (a : Str) (d : Char) (b : Str) (hd1 : d ≠ '/')
    (hd2 : tagHead d = false) (hd3 : tagHeadClose d = false)
    (h : safeAfterLt (a ++ d :: b) = true) : safeAfterLt a = true := by
  cases a with
  | nil =>
    simp only [List.nil_append, safeAfterLt, if_neg hd1, hd2] at h
    exact (Bool.false_ne_true h).elim
  | cons e a' =>
    rw [List.cons_append] at h
    simp only [safeAfterLt] at h ⊢
    by_cases he : e = '/'
    · rw [if_pos he] at h ⊢
      cases a' with
      | nil =>
        simp only [List.nil_append, hd3] at h
        exact (Bool.false_ne_true h).elim
      | cons f a'' => simpa using h
    · rw [if_neg he] at h ⊢
      exact h

lemma tagSafe_left_delim (a : Str) (d : Char) (b : Str) (hd1 : d ≠ '/')
    (hd2 : tagHead d = false) (hd3 : tagHeadClose d = false)
    (h : tagSafe (a ++ d :: b) = true) : tagSafe a = true := by
  induction a with
  | nil => rfl
  | cons c a' ih =>
    rw [List.cons_append] at h
    simp only [tagSafe, Bool.and_eq_true] at h ⊢
    refine ⟨?_, ih h.2⟩
    by_cases hc : c = '<'
    · rw [if_pos hc] at h ⊢
      exact safeAfterLt_left a' d b hd1 hd2 hd3 h.1
    · rw [if_neg hc]

lemma scanClose2_decomp (m : Char) :
    ∀ (l acc g rest : Str), scanClose2 m acc l = some (g, rest) →
      ∃ mid, l = mid ++ m :: m :: rest ∧ g = acc.reverse ++ mid := by
  intro l
  induction l with
  | nil => intro acc g rest h; simp [scanClose2] at h
  | cons c l' ih =>
    intro acc g rest h
    simp only [scanClose2] at h
    by_cases h1 : (c == m && l'.head? == some m) = true
    · rw [if_pos h1] at h
      rw [Option.some_inj, Prod.mk.injEq] at h
      rw [Bool.and_eq_true] at h1
      have hc : c = m := eq_of_beq h1.1
      have hhd : l'.head? = some m := eq_of_beq h1.2
      cases l' with
      | nil => simp at hhd
      | cons x xs =>
        rw [List.head?_cons, Option.some_inj] at hhd
        refine ⟨[], ?_, ?_⟩
        · rw [List.nil_append, hc, hhd, ← h.2]
          rfl
        · rw [← h.1, List.append_nil]
    · rw [if_neg h1] at h
      split at h
      · exact absurd h (by simp)
      · obtain ⟨mid', hl', hg⟩ := ih (c :: acc) g rest h
        refine ⟨c :: mid', by rw [List.cons_append, ← hl'], ?_⟩
        rw [hg, List.reverse_cons, List.append_assoc]
        rfl

lemma scanClose1_decomp (m : Char) :
    ∀ (l acc g rest : Str), scanClose1 m acc l = some (g, rest) →
      ∃ mid, l = mid ++ m :: rest ∧ g = acc.reverse ++ mid := by
  intro l
  induction l with
  | nil => intro acc g rest h; simp [scanClose1] at h
  | cons c l' ih =>
    intro acc g rest h
    simp only [scanClose1] at h
    by_cases h1 : (c == m) = true
    · rw [if_pos h1] at h
      rw [Option.some_inj, Prod.mk.injEq] at h
      refine ⟨[], ?_, ?_⟩
      · rw [List.nil_append, eq_of_beq h1, ← h.2]
      · rw [← h.1, List.append_nil]
    · rw [if_neg h1] at h
      split at h
      · exact absurd h (by simp)
      · obtain ⟨mid', hl', hg⟩ := ih (c :: acc) g rest h
        refine ⟨c :: mid', by rw [List.cons_append, ← hl'], ?_⟩
        rw [hg, List.reverse_cons, List.append_assoc]
        rfl

lemma suffix_trans_cons (c : Char) (l s : Str) (h : (c :: l) <:+ s) :
    l <:+ s :=
  (List.suffix_cons c l).trans h

lemma bracketParen_suffix (rest alt src rest3 : Str)
    (h : bracketParen rest = some (alt, src, rest3)) : rest3 <:+ rest := by
  simp only [bracketParen] at h
  split at h
  · split at h
    · split at h
      · exact absurd h (by simp)
      · split at h
        · rename_i x0 rest1 rest2 heq hne x1 rest3' heq3
          rw [Option.some_inj, Prod.mk.injEq, Prod.mk.injEq] at h
          have s1 : (']' :: '(' :: rest2) <:+ rest := by
            rw [← heq]
            exact List.dropWhile_suffix _
          have s2 : rest2 <:+ rest :=
            suffix_trans_cons '(' rest2 rest (suffix_trans_cons ']' _ rest s1)
          have s3 : (')' :: rest3') <:+ rest2 := by
            rw [← heq3]
            exact List.dropWhile_suffix _
          have s4 : rest3' <:+ rest :=
            (suffix_trans_cons ')' rest3' rest2 s3).trans s2
          rw [← h.2.2]
          exact s4
        · exact absurd h (by simp)
    · exact absurd h (by simp)
  · exact absurd h (by simp)

lemma tryImg_safe (s g rest : Str) (hs : tagSafe s = true)
    (h : tryImg s = some (g, rest)) :
    tagSafe g = true ∧ tagSafe rest = true := by
  cases s with
  | nil => simp [tryImg] at h
  | cons c cs =>
    simp only [tryImg] at h
    split at h
    · split at h
      · split at h
        · rename_i hc cs0 rest0 x0 alt src rest3 hbp
          rw [Option.some_inj, Prod.mk.injEq] at h
          have hrest0 : tagSafe rest0 = true := by
            refine tagSafe_of_suffix _ (c :: '[' :: rest0) ?_ hs
            exact (List.suffix_cons '[' rest0).trans
              (List.suffix_cons c ('[' :: rest0))
          constructor
          · rw [← h.1]
            refine tagSafe_append _ _ ?_ (by decide)
            refine tagSafe_append _ _ ?_ (escape_tagSafe alt)
            refine tagSafe_append _ _ ?_ (by decide)
            exact tagSafe_append _ _ (by decide) (escape_tagSafe src)
          · rw [← h.2]
            exact tagSafe_of_suffix _ _
              (bracketParen_suffix rest0 alt src rest3 hbp) hrest0
        · exact absurd h (by simp)
      · exact absurd h (by simp)
    · exact absurd h (by simp)

lemma tryLink_safe (s g rest : Str) (hs : tagSafe s = true)
    (h : tryLink s = some (g, rest)) :
    tagSafe g = true ∧ tagSafe rest = true := by
  cases s with
  | nil => simp [tryLink] at h
  | cons c cs =>
    simp only [tryLink] at h
    split at h
    · split at h
      · split at h
        · exact absurd h (by simp)
        · rename_i hc x0 alt src rest3 hbp hne
          rw [Option.some_inj, Prod.mk.injEq] at h
          have hcs : tagSafe cs = true :=
            tagSafe_of_suffix _ _ (List.suffix_cons c cs) hs
          constructor
          · rw [← h.1]
            refine tagSafe_append _ _ ?_ (by decide)
            refine tagSafe_append _ _ ?_ (escape_tagSafe alt)
            refine tagSafe_append _ _ ?_ (by decide)
            exact tagSafe_append _ _ (by decide) (escape_tagSafe src)
          · rw [← h.2]
            exact tagSafe_of_suffix _ _
              (bracketParen_suffix cs alt src rest3 hbp) hcs
      · exact absurd h (by simp)
    · exact absurd h (by simp)

lemma tryCode_safe (s g rest : Str) (hs : tagSafe s = true)
    (h : tryCode s = some (g, rest)) :
    tagSafe g = true ∧ tagSafe rest = true := by
  cases s with
  | nil => simp [tryCode] at h
  | cons c cs =>
    simp only [tryCode] at h
    split at h
    · split at h
      · exact absurd h (by simp)
      · split at h
        · rename_i hc hne x0 rest2 heq
          rw [Option.some_inj, Prod.mk.injEq] at h
          have hcs : tagSafe cs = true :=
            tagSafe_of_suffix _ _ (List.suffix_cons c cs) hs
          have hdecomp :
              cs.takeWhile (fun x => decide (x ≠ '`')) ++ '`' :: rest2 = cs := by
            rw [← heq]
            exact List.takeWhile_append_dropWhile _ _
          constructor
          · rw [← h.1]
            refine tagSafe_append _ _ ?_ (by decide)
            refine tagSafe_append _ _ (by decide) ?_
            refine tagSafe_left_delim _ '`' rest2 (by decide) (by decide)
              (by decide) ?_
            rw [hdecomp]
            exact hcs
          · rw [← h.2]
            refine tagSafe_of_suffix _ _ ?_ hcs
            refine ⟨cs.takeWhile (fun x => decide (x ≠ '`')) ++ ['`'], ?_⟩
            rw [List.append_assoc, List.singleton_append, hdecomp]
        · exact absurd h (by simp)
    · exact absurd h (by simp)

lemma try2_safe (m : Char) (oT cT : Str) (hm1 : m ≠ '/')
    (hm2 : tagHead m = false) (hm3 : tagHeadClose m = false)
    (hoT : tagSafe oT = true) (hcT : tagSafe cT = true)
    (s g rest : Str) (hs : tagSafe s = true)
    (h : try2 m oT cT s = some (g, rest)) :
    tagSafe g = true ∧ tagSafe rest = true := by
  cases s with
  | nil => simp [try2] at h
  | cons c cs =>
    simp only [try2] at h
    split at h
    · split at h
      · split at h
        · split at h
          · exact absurd h (by simp)
          · split at h
            · rename_i hc cs0 c2 c3 cs3 hc2 hc3 x0 grp rest' hscan
              rw [Option.some_inj, Prod.mk.injEq] at h
              obtain ⟨mid, hcs3, hg⟩ :=
                scanClose2_decomp m cs3 [c3] grp rest' hscan
              have hc3cs3 : tagSafe (c3 :: cs3) = true := by
                refine tagSafe_of_suffix _ (c :: c2 :: c3 :: cs3) ?_ hs
                exact (List.suffix_cons c2 (c3 :: cs3)).trans
                  (List.suffix_cons c (c2 :: c3 :: cs3))
              have hgrp : tagSafe (c3 :: mid) = true := by
                refine tagSafe_left_delim _ m (m :: rest') hm1 hm2 hm3 ?_
                rw [show (c3 :: mid) ++ m :: m :: rest' =
                  c3 :: (mid ++ m :: m :: rest') from rfl, ← hcs3]
                exact hc3cs3
              constructor
              · rw [← h.1, hg]
                refine tagSafe_append _ _ ?_ hcT
                exact tagSafe_append _ _ hoT (by simpa using hgrp)
              · rw [← h.2]
                refine tagSafe_of_suffix _ (c3 :: cs3) ?_ hc3cs3
                refine ⟨c3 :: mid ++ [m, m], ?_⟩
                rw [hcs3]
                simp
            · exact absurd h (by simp)
        · exact absurd h (by simp)
      · exact absurd h (by simp)
    · exact absurd h (by simp)

lemma tryItalic_safe (s g rest : Str) (hs : tagSafe s = true)
    (h : tryItalic s = some (g, rest)) :
    tagSafe g = true ∧ tagSafe rest = true := by
  cases s with
  | nil => simp [tryItalic] at h
  | cons c cs =>
    simp only [tryItalic] at h
    split at h
    · split at h
      · split at h
        · exact absurd h (by simp)
        · split at h
          · rename_i hc cs0 c2 cs2 hc2 x0 grp rest' hscan
            rw [Option.some_inj, Prod.mk.injEq] at h
            obtain ⟨mid, hcs2, hg⟩ :=
              scanClose1_decomp '*' cs2 [c2] grp rest' hscan
            have hc2cs2 : tagSafe (c2 :: cs2) = true := by
              refine tagSafe_of_suffix _ (c :: c2 :: cs2) ?_ hs
              exact List.suffix_cons c (c2 :: cs2)
            have hgrp : tagSafe (c2 :: mid) = true := by
              refine tagSafe_left_delim _ '*' rest' (by decide) (by decide)
                (by decide) ?_
              rw [show (c2 :: mid) ++ '*' :: rest' =
                c2 :: (mid ++ '*' :: rest') from rfl, ← hcs2]
              exact hc2cs2
            constructor
            · rw [← h.1, hg]
              refine tagSafe_append _ _ ?_ (by decide)
              exact tagSafe_append _ _ (by decide) (by simpa using hgrp)
            · rw [← h.2]
              refine tagSafe_of_suffix _ (c2 :: cs2) ?_ hc2cs2
              refine ⟨c2 :: mid ++ ['*'], ?_⟩
              rw [hcs2]
              simp
          · exact absurd h (by simp)
      · exact absurd h (by simp)
    · exact absurd h (by simp)

lemma subPass_head (tryAt : Str → Option (Str × Str)) (m0 : Char)
    (Hnone : ∀ c cs, c ≠ m0 → tryAt (c :: cs) = none)
    (n : Nat) (c : Char) (cs : Str) (hc : c ≠ m0) :
    subPass tryAt (n + 1) (c :: cs) = c :: subPass tryAt n cs := by
  simp only [subPass, Hnone c cs hc]

lemma subPass_safeAfterLt (tryAt : Str → Option (Str × Str)) (m0 : Char)
    (Hnone : ∀ c cs, c ≠ m0 → tryAt (c :: cs) = none)
    (hm1 : m0 ≠ '/') (hm2 : tagHead m0 = false) (hm3 : tagHeadClose m0 = false)
    (n : Nat) (s : Str) (h : safeAfterLt s = true) :
    safeAfterLt (subPass tryAt n s) = true := by
  cases n with
  | zero => exact h
  | succ n =>
    cases s with
    | nil => simp [safeAfterLt] at h
    | cons d rest =>
      simp only [safeAfterLt] at h
      by_cases hd : d = '/'
      · rw [if_pos hd] at h
        cases rest with
        | nil => simp at h
        | cons d2 r2 =>
          have h2 : tagHeadClose d2 = true := by simpa using h
          have hdm : d ≠ m0 := by
            rw [hd]
            exact fun e => hm1 e.symm
          rw [subPass_head tryAt m0 Hnone n d (d2 :: r2) hdm]
          have hd2m : d2 ≠ m0 := by
            intro e
            rw [e, hm3] at h2
            exact Bool.false_ne_true h2
          simp only [safeAfterLt, if_pos hd]
          cases n with
          | zero => simpa using h2
          | succ n2 =>
            rw [subPass_head tryAt m0 Hnone n2 d2 r2 hd2m]
            simpa using h2
      · rw [if_neg hd] at h
        have hdm : d ≠ m0 := by
          intro e
          rw [e, hm2] at h
          exact Bool.false_ne_true h
        rw [subPass_head tryAt m0 Hnone n d rest hdm]
        simp only [safeAfterLt, if_neg hd]
        exact h

lemma subPass_tagSafe (tryAt : Str → Option (Str × Str)) (m0 : Char)
    (Hnone : ∀ c cs, c ≠ m0 → tryAt (c :: cs) = none)
    (hm1 : m0 ≠ '/') (hm2 : tagHead m0 = false) (hm3 : tagHeadClose m0 = false)
    (H : ∀ s g rest, tagSafe s = true → tryAt s = some (g, rest) →
      tagSafe g = true ∧ tagSafe rest = true) :
    ∀ (n : Nat) (s : Str), tagSafe s = true →
      tagSafe (subPass tryAt n s) = true := by
  intro n
  induction n with
  | zero => intro s hs; exact hs
  | succ n ih =>
    intro s hs
    cases s with
    | nil => exact hs
    | cons c cs =>
      simp only [tagSafe, Bool.and_eq_true] at hs
      rcases e : tryAt (c :: cs) with _ | ⟨g, rest⟩
      · simp only [subPass, e]
        simp only [tagSafe, Bool.and_eq_true]
        refine ⟨?_, ih cs hs.2⟩
        by_cases hc : c = '<'
        · rw [if_pos hc]
          rw [if_pos hc] at hs
          exact subPass_safeAfterLt tryAt m0 Hnone hm1 hm2 hm3 n cs hs.1
        · rw [if_neg hc]
      · simp only [subPass, e]
        have hfull : tagSafe (c :: cs) = true := by
          simp only [tagSafe, Bool.and_eq_true]
          exact hs
        obtain ⟨hg, hrest⟩ := H (c :: cs) g rest hfull e
        exact tagSafe_append _ _ hg (ih rest hrest)

lemma inline_parse_tagSafe_of (s0 : Str) (hs0 : tagSafe s0 = true) :
    tagSafe (inline_parse s0) = true := by
  simp only [inline_parse]
  exact subPass_tagSafe tryStrike '~' (fun c cs h => try2_none '~' _ _ c cs h)
    (by decide) (by decide) (by decide)
    (fun s g rest hs h => try2_safe '~' _ _ (by decide) (by decide) (by decide)
      (by decide) (by decide) s g rest hs h) _ _
    (subPass_tagSafe tryItalic '*' (fun c cs h => tryItalic_none c cs h)
      (by decide) (by decide) (by decide)
      (fun s g rest hs h => tryItalic_safe s g rest hs h) _ _
      (subPass_tagSafe tryBold '*' (fun c cs h => try2_none '*' _ _ c cs h)
        (by decide) (by decide) (by decide)
        (fun s g rest hs h => try2_safe '*' _ _ (by decide) (by decide)
          (by decide) (by decide) (by decide) s g rest hs h) _ _
        (subPass_tagSafe tryCode '`' (fun c cs h => tryCode_none c cs h)
          (by decide) (by decide) (by decide)
          (fun s g rest hs h => tryCode_safe s g rest hs h) _ _
          (subPass_tagSafe tryLink '[' (fun c cs h => tryLink_none c cs h)
            (by decide) (by decide) (by decide)
            (fun s g rest hs h => tryLink_safe s g rest hs h) _ _
            (subPass_tagSafe tryImg '!' (fun c cs h => tryImg_none c cs h)
              (by decide) (by decide) (by decide)
              (fun s g rest hs h => tryImg_safe s g rest hs h) _ _ hs0)))))

lemma inline_tagSafe (t : Str) :
    tagSafe (inline_parse (escape_html t)) = true :=
  inline_parse_tagSafe_of _ (escape_tagSafe t)




lemma char_toNat_inj (c d : Char) (h : c.toNat = d.toNat) : c = d := by
  have h1 : Char.ofNat c.toNat = Char.ofNat d.toNat := by rw [h]
  rwa [Char.ofNat_toNat, Char.ofNat_toNat] at h1

lemma asciiLetter_facts (c : Char) (h : asciiLetter c = true) :
    pyIsDigit c = false ∧ pyIsSpace c = false := by
  simp only [asciiLetter, Bool.or_eq_true, Bool.and_eq_true,
    decide_eq_true_eq] at h
  constructor
  · simp only [pyIsDigit]
    simp only [Bool.and_eq_false_iff, decide_eq_false_iff_not]
    omega
  · simp [pyIsSpace]
    omega

lemma plainChar_facts (c : Char) (h : plainChar c = true) :
    isLineBreak c = false ∧
    (c ≠ ' ' → pyIsSpace c = false) ∧ (c ≠ '\n') := by
  simp only [plainChar, Bool.or_eq_true, Bool.and_eq_true, beq_iff_eq,
    decide_eq_true_eq] at h
  refine ⟨?_, ?_, ?_⟩
  · simp [isLineBreak]
    omega
  · intro hne
    have hne32 : c.toNat ≠ 32 := by
      intro e
      exact hne (char_toNat_inj c ' ' e)
    simp [pyIsSpace]
    omega
  · intro e
    subst e
    simp at h

lemma plainPara_parts (s : Str) (hp : plainPara s = true) :
    (∃ c cs, s = c :: cs ∧ asciiLetter c = true) ∧ s.all plainChar = true ∧
    (∀ l, s.getLast? = some l → l ≠ ' ') := by
  cases s with
  | nil => simp [plainPara] at hp
  | cons c cs =>
    simp only [plainPara, Bool.and_eq_true] at hp
    refine ⟨⟨c, cs, rfl, hp.1.1⟩, hp.1.2, ?_⟩
    intro l hl e
    subst e
    rw [hl] at hp
    simp at hp

lemma plain_rstrip (s : Str) (hp : plainPara s = true) : rstrip s = s := by
  obtain ⟨_, hall, hlast⟩ := plainPara_parts s hp
  unfold rstrip
  cases e : s.reverse with
  | nil => simp [List.reverse_eq_nil_iff.mp e]
  | cons l t =>
    have hl : s.getLast? = some l := by
      rw [← List.head?_reverse, e]
      rfl
    have hmem : l ∈ s := by
      have : l ∈ s.reverse := by rw [e]; exact List.mem_cons_self _ _
      simpa using this
    have hpc := List.all_eq_true.mp hall l hmem
    have := (plainChar_facts l hpc).2.1 (hlast l hl)
    rw [List.dropWhile_cons, if_neg (by simp [this]), ← e,
      List.reverse_reverse]

lemma plain_head_facts (s : Str) (hp : plainPara s = true) :
    ∃ c cs, s = c :: cs ∧ asciiLetter c = true ∧
      s.dropWhile pyIsSpace = s ∧ (s.dropWhile pyIsSpace).head? = some c := by
  obtain ⟨⟨c, cs, rfl, hc⟩, _, _⟩ := plainPara_parts _ hp
  have hsp := (asciiLetter_facts c hc).2
  refine ⟨c, cs, rfl, hc, ?_, ?_⟩
  · rw [List.dropWhile_cons, if_neg (by simp [hsp])]
  · rw [List.dropWhile_cons, if_neg (by simp [hsp])]
    rfl

lemma plain_strip (s : Str) (hp : plainPara s = true) : strip s = s := by
  obtain ⟨c, cs, he, hc, hdw, _⟩ := plain_head_facts s hp
  unfold strip
  rw [plain_rstrip s hp, hdw]

lemma plain_not_blank (s : Str) (hp : plainPara s = true) :
    (strip s).isEmpty = false := by
  rw [plain_strip s hp]
  obtain ⟨c, cs, he, _⟩ := plain_head_facts s hp
  rw [he]
  rfl

lemma plain_fence_none (s : Str) (hp : plainPara s = true) :
    fenceMatch s = none := by
  obtain ⟨c, cs, he, hc, hdw, hhd⟩ := plain_head_facts s hp
  cases e : fenceMatch s with
  | none => rfl
  | some g =>
    have h2 := fence_firstNonWs s (by rw [e]; rfl)
    rw [hhd, Option.some_inj] at h2
    subst h2
    exact absurd hc (by decide)

lemma plain_heading_none (s : Str) (hp : plainPara s = true) :
    headingMatch s = none := by
  obtain ⟨c, cs, he, hc, hdw, hhd⟩ := plain_head_facts s hp
  cases e : headingMatch s with
  | none => rfl
  | some g =>
    have h2 := (headingMatch_isSome_iff s).mp (by rw [e]; rfl)
    rw [he] at h2
    rw [List.head?_cons, Option.some_inj] at h2
    subst h2
    exact absurd hc (by decide)

lemma plain_ul_none (s : Str) (hp : plainPara s = true) :
    ulMatch s = none := by
  obtain ⟨c, cs, he, hc, hdw, hhd⟩ := plain_head_facts s hp
  cases e : ulMatch s with
  | none => rfl
  | some g =>
    obtain ⟨d, hd, hm⟩ := ul_firstNonWs s (by rw [e]; rfl)
    rw [hhd, Option.some_inj] at hd
    subst hd
    rcases hm with rfl | rfl | rfl <;> exact absurd hc (by decide)

lemma plain_ol_none (s : Str) (hp : plainPara s = true) :
    olMatch s = none := by
  obtain ⟨c, cs, he, hc, hdw, hhd⟩ := plain_head_facts s hp
  cases e : olMatch s with
  | none => rfl
  | some g =>
    obtain ⟨d, hd, hdig⟩ := ol_firstNonWs s (by rw [e]; rfl)
    rw [hhd, Option.some_inj] at hd
    subst hd
    rw [(asciiLetter_facts c hc).1] at hdig
    simp at hdig

lemma plain_table_false (s : Str) (hp : plainPara s = true) :
    isTableLine s = false := by
  obtain ⟨c, cs, he, hc, hdw, hhd⟩ := plain_head_facts s hp
  cases e : isTableLine s with
  | false => rfl
  | true =>
    have h2 := table_firstNonWs s e
    rw [hhd, Option.some_inj] at h2
    subst h2
    exact absurd hc (by decide)

lemma plain_bq_none (s : Str) (hp : plainPara s = true) :
    bqMatch s = none := by
  obtain ⟨c, cs, he, hc, hdw, hhd⟩ := plain_head_facts s hp
  cases e : bqMatch s with
  | none => rfl
  | some g =>
    have h2 := bq_head s (by rw [e]; rfl)
    rw [he, List.head?_cons, Option.some_inj] at h2
    subst h2
    exact absurd hc (by decide)

lemma hr_firstNonWs (l : Str) (h : isHR l = true) :
    ∃ c, (l.dropWhile pyIsSpace).head? = some c ∧
      (c = '-' ∨ c = '*' ∨ c = '_') := by
  unfold isHR at h
  split at h
  · rename_i c rest he
    refine ⟨c, by rw [he]; rfl, ?_⟩
    split at h
    · rename_i hcset
      simp only [Bool.or_eq_true, beq_iff_eq] at hcset
      tauto
    · simp at h
  · simp at h

lemma plain_hr_false (s : Str) (hp : plainPara s = true) :
    isHR s = false := by
  obtain ⟨c, cs, he, hc, hdw, hhd⟩ := plain_head_facts s hp
  cases e : isHR s with
  | false => rfl
  | true =>
    obtain ⟨d, hd, hm⟩ := hr_firstNonWs s e
    rw [hhd, Option.some_inj] at hd
    subst hd
    rcases hm with rfl | rfl | rfl <;> exact absurd hc (by decide)



lemma plainChar_not_escape (c : Char) (h : plainChar c = true) :
    (!(c == '&' || c == '<' || c == '>')) = true := by
  simp only [Bool.not_eq_eq_eq_not, Bool.not_true, Bool.or_eq_false_iff,
    beq_eq_false_iff_ne, ne_eq]
  refine ⟨⟨?_, ?_⟩, ?_⟩ <;>
    (intro e; subst e; exact absurd h (by decide))

lemma plain_escape_id (s : Str) (hp : plainPara s = true) :
    escape_html s = s := by
  obtain ⟨_, hall, _⟩ := plainPara_parts s hp
  exact escape_id_of_clean s (List.all_eq_true.mpr
    (fun c hc => plainChar_not_escape c (List.all_eq_true.mp hall c hc)))

lemma plainChar_not_inline (c : Char) (h : plainChar c = true) :
    c ≠ '!' ∧ c ≠ '[' ∧ c ≠ '`' ∧ c ≠ '*' ∧ c ≠ '~' := by
  refine ⟨?_, ?_, ?_, ?_, ?_⟩ <;>
    (intro e; subst e; exact absurd h (by decide))

lemma plain_inline_id (s : Str) (hp : plainPara s = true) :
    inline_parse s = s := by
  obtain ⟨_, hall, _⟩ := plainPara_parts s hp
  exact inline_parse_id s
    (fun c hc => plainChar_not_inline c (List.all_eq_true.mp hall c hc))

lemma plain_no_double_space (s : Str) (hp : plainPara s = true) :
    (str "  ").isSuffixOf s = false := by
  obtain ⟨_, hall, hlast⟩ := plainPara_parts s hp
  cases e : (str "  ").isSuffixOf s with
  | false => rfl
  | true =>
    obtain ⟨t, ht⟩ := List.isSuffixOf_iff_suffix.mp e
    have hl : s.getLast? = some ' ' := by
      rw [← ht, List.getLast?_append_of_ne_nil t (show str "  " ≠ [] by decide)]
      rfl
    exact absurd rfl (hlast ' ' hl)

lemma plain_nl_rstrip (s : Str) (hp : plainPara s = true) :
    (s.reverse.dropWhile (· == '\n')).reverse = s := by
  obtain ⟨_, hall, hlast⟩ := plainPara_parts s hp
  cases e : s.reverse with
  | nil => simp [List.reverse_eq_nil_iff.mp e]
  | cons l t =>
    have hl : s.getLast? = some l := by
      rw [← List.head?_reverse, e]
      rfl
    have hmem : l ∈ s := by
      have : l ∈ s.reverse := by rw [e]; exact List.mem_cons_self _ _
      simpa using this
    have hpc := List.all_eq_true.mp hall l hmem
    have hnl : (l == '\n') = false := by
      simpa using (plainChar_facts l hpc).2.2
    rw [List.dropWhile_cons, if_neg (by simp [hnl]), ← e,
      List.reverse_reverse]

lemma plain_paraPart (s : Str) (hp : plainPara s = true) :
    paraPart true s = s := by
  simp only [paraPart]
  rw [plain_nl_rstrip s hp, plain_no_double_space s hp]
  simp only [Bool.false_eq_true, if_false]
  rw [plain_escape_id s hp, plain_inline_id s hp]
  simp

lemma plain_buildPara (s : Str) (hp : plainPara s = true) :
    buildPara [s] = s := by
  unfold buildPara paraParts
  rw [plain_paraPart s hp]
  simp only [List.flatten_cons, List.flatten_nil, List.append_nil]
  exact plain_strip s hp

lemma plainChar_not_meta (c : Char) (h : plainChar c = true) :
    c ≠ '<' ∧ c ≠ '&' := by
  refine ⟨?_, ?_⟩ <;> (intro e; subst e; exact absurd h (by decide))

lemma plain_computeMeta (s : Str) (hp : plainPara s = true) :
    computeMeta s =
      if 160 < s.length then s.take 157 ++ str "..." else s := by
  obtain ⟨_, hall, _⟩ := plainPara_parts s hp
  simp only [computeMeta]
  rw [stripTags_id _ s
      (fun c hc => (plainChar_not_meta c (List.all_eq_true.mp hall c hc)).1),
    pyUnescape_id _ s
      (fun c hc => (plainChar_not_meta c (List.all_eq_true.mp hall c hc)).2)]

lemma plain_computeMeta_nonempty (s : Str) (hp : plainPara s = true) :
    (computeMeta s).isEmpty = false := by
  rw [plain_computeMeta s hp]
  obtain ⟨c, cs, he, _⟩ := plain_head_facts s hp
  split
  · simp [str]
  · rw [he]
    rfl

lemma metaScan_some_ne_nil (n : Nat) (b : Bool) (ls : List Str)
    (pl : List Str) (h : metaScan n b ls = some pl) : pl ≠ [] := by
  induction n generalizing b ls with
  | zero => simp [metaScan] at h
  | succ n ih =>
    cases ls with
    | nil => simp [metaScan] at h
    | cons raw rs =>
      simp only [metaScan] at h
      split at h
      · split at h
        · exact ih _ _ h
        · exact ih _ _ h
      · split at h
        · exact ih _ _ h
        · split at h
          · exact ih _ _ h
          · split at h
            · exact ih _ _ h
            · split at h
              · exact ih _ _ h
              · split at h
                · exact ih _ _ h
                · split at h
                  · exact ih _ _ h
                  · split at h
                    · exact ih _ _ h
                    · rw [Option.some_inj] at h
                      rw [← h]
                      simp

lemma rstrip_id_of_last (s : Str)
    (h2 : ∀ d, s.getLast? = some d → pyIsSpace d = false) : rstrip s = s := by
  unfold rstrip
  cases e : s.reverse with
  | nil => simp [List.reverse_eq_nil_iff.mp e]
  | cons l t =>
    have hl : s.getLast? = some l := by
      rw [← List.head?_reverse, e]
      rfl
    rw [List.dropWhile_cons, if_neg (by simp [h2 l hl]), ← e,
      List.reverse_reverse]

lemma strip_id_of_ends (s : Str)
    (h1 : ∀ c, s.head? = some c → pyIsSpace c = false)
    (h2 : ∀ d, s.getLast? = some d → pyIsSpace d = false) : strip s = s := by
  unfold strip
  rw [rstrip_id_of_last s h2]
  cases s with
  | nil => rfl
  | cons c cs =>
    rw [List.dropWhile_cons, if_neg (by simp [h1 c rfl])]

lemma plain_paraPart_false (s : Str) (hp : plainPara s = true) :
    paraPart false s = s ++ str " " := by
  simp only [paraPart]
  rw [plain_nl_rstrip s hp, plain_no_double_space s hp]
  simp only [Bool.false_eq_true, if_false]
  rw [plain_escape_id s hp, plain_inline_id s hp]

lemma plain_paraParts_flatten (pl : List Str)
    (hp : ∀ l ∈ pl, plainPara l = true) :
    (paraParts pl).flatten = joinSp pl := by
  induction pl with
  | nil => rfl
  | cons l rest ih =>
    cases rest with
    | nil =>
      show (paraParts [l]).flatten = joinSp [l]
      simp only [paraParts, joinSp, List.flatten]
      rw [plain_paraPart l (hp l (List.mem_cons_self _ _))]
      simp
    | cons l2 rest' =>
      show (paraParts (l :: l2 :: rest')).flatten = joinSp (l :: l2 :: rest')
      have e1 : paraParts (l :: l2 :: rest') =
          paraPart false l :: paraParts (l2 :: rest') := rfl
      have e2 : joinSp (l :: l2 :: rest') = l ++ ' ' :: joinSp (l2 :: rest') :=
        rfl
      rw [e1, e2, List.flatten_cons,
        plain_paraPart_false l (hp l (List.mem_cons_self _ _)),
        ih (fun x hx => hp x (List.mem_cons_of_mem _ hx))]
      simp [str]

lemma joinSp_ne_nil (l : Str) (rest : List Str) (hl : l ≠ []) :
    joinSp (l :: rest) ≠ [] := by
  cases rest with
  | nil => exact hl
  | cons l2 rest' =>
    show l ++ ' ' :: joinSp (l2 :: rest') ≠ []
    simp

lemma joinSp_all_plain (pl : List Str) (hp : ∀ l ∈ pl, plainPara l = true) :
    ∀ ch ∈ joinSp pl, plainChar ch = true := by
  induction pl with
  | nil => intro ch hch; simp [joinSp] at hch
  | cons l rest ih =>
    intro ch hch
    cases rest with
    | nil =>
      obtain ⟨_, hall, _⟩ := plainPara_parts l (hp l (List.mem_cons_self _ _))
      exact List.all_eq_true.mp hall ch hch
    | cons l2 rest' =>
      rw [show joinSp (l :: l2 :: rest') = l ++ ' ' :: joinSp (l2 :: rest')
        from rfl] at hch
      rcases List.mem_append.mp hch with h1 | h2
      · obtain ⟨_, hall, _⟩ := plainPara_parts l (hp l (List.mem_cons_self _ _))
        exact List.all_eq_true.mp hall ch h1
      · rcases List.mem_cons.mp h2 with rfl | h3
        · decide
        · exact ih (fun x hx => hp x (List.mem_cons_of_mem _ hx)) ch h3

lemma joinSp_head (l : Str) (rest : List Str) (c : Char) (cs : Str)
    (he : l = c :: cs) : (joinSp (l :: rest)).head? = some c := by
  cases rest with
  | nil =>
    show l.head? = some c
    rw [he]
    rfl
  | cons l2 rest' =>
    show (l ++ ' ' :: joinSp (l2 :: rest')).head? = some c
    rw [he]
    rfl

lemma joinSp_last (pl : List Str) (hp : ∀ l ∈ pl, plainPara l = true) :
    ∀ d, (joinSp pl).getLast? = some d → pyIsSpace d = false := by
  induction pl with
  | nil => intro d hd; simp [joinSp] at hd
  | cons l rest ih =>
    intro d hd
    cases rest with
    | nil =>
      obtain ⟨_, hall, hlast⟩ := plainPara_parts l (hp l (List.mem_cons_self _ _))
      have hd' : l.getLast? = some d := hd
      have hmem : d ∈ l := by
        cases e : l.reverse with
        | nil =>
          rw [← List.head?_reverse, e] at hd'
          simp at hd'
        | cons x t =>
          rw [← List.head?_reverse, e] at hd'
          rw [List.head?_cons, Option.some_inj] at hd'
          rw [← hd']
          have hx : x ∈ l.reverse := by rw [e]; exact List.mem_cons_self _ _
          simpa using hx
      exact (plainChar_facts d (List.all_eq_true.mp hall d hmem)).2.1
        (hlast d hd')
    | cons l2 rest' =>
      rw [show joinSp (l :: l2 :: rest') = l ++ ' ' :: joinSp (l2 :: rest')
        from rfl] at hd
      have hl2ne : l2 ≠ [] := by
        have := hp l2 (List.mem_cons_of_mem _ (List.mem_cons_self _ _))
        intro e
        rw [e] at this
        simp [plainPara] at this
      have hjne : joinSp (l2 :: rest') ≠ [] := joinSp_ne_nil l2 rest' hl2ne
      rw [List.getLast?_append_of_ne_nil l (by simp)] at hd
      have hd2 : ([' '] ++ joinSp (l2 :: rest')).getLast? = some d := hd
      rw [List.getLast?_append_of_ne_nil [' '] hjne] at hd2
      exact ih (fun x hx => hp x (List.mem_cons_of_mem _ hx)) d hd2

lemma plain_buildPara_list (pl : List Str) (hne : pl ≠ [])
    (hp : ∀ l ∈ pl, plainPara l = true) : buildPara pl = joinSp pl := by
  unfold buildPara
  rw [plain_paraParts_flatten pl hp]
  cases pl with
  | nil => exact absurd rfl hne
  | cons l rest =>
    obtain ⟨c, cs, he, hc, _, _⟩ := plain_head_facts l
      (hp l (List.mem_cons_self _ _))
    refine strip_id_of_ends _ ?_ (joinSp_last _ hp)
    intro c' hc'
    rw [joinSp_head l rest c cs he, Option.some_inj] at hc'
    subst hc'
    exact (asciiLetter_facts c hc).2

lemma plain_computeMeta_join (pl : List Str)
    (hp : ∀ l ∈ pl, plainPara l = true) :
    computeMeta (joinSp pl) =
      if 160 < (joinSp pl).length then (joinSp pl).take 157 ++ str "..."
      else joinSp pl := by
  simp only [computeMeta]
  rw [stripTags_id _ _ (fun c hc =>
      (plainChar_not_meta c (joinSp_all_plain pl hp c hc)).1),
    pyUnescape_id _ _ (fun c hc =>
      (plainChar_not_meta c (joinSp_all_plain pl hp c hc)).2)]

lemma plain_computeMeta_join_ne (pl : List Str) (hne : pl ≠ [])
    (hp : ∀ l ∈ pl, plainPara l = true) :
    (computeMeta (joinSp pl)).isEmpty = false := by
  rw [plain_computeMeta_join pl hp]
  split
  · simp [str]
  · cases pl with
    | nil => exact absurd rfl hne
    | cons l rest =>
      have hlne : l ≠ [] := by
        have := hp l (List.mem_cons_self _ _)
        intro e
        rw [e] at this
        simp [plainPara] at this
      have := joinSp_ne_nil l rest hlne
      simpa [List.isEmpty_iff] using this

lemma meta_main (n : Nat) (pl : List Str)
    (hne : (computeMeta (buildPara pl)).isEmpty = false) :
    ∀ (st : St) (rest : List Str), rest.length ≤ n →
      optFalsy st.meta = true →
      metaScan n st.insideCode rest = some pl →
      (goLines n st rest).meta = some (computeMeta (buildPara pl)) := by
  induction n with
  | zero =>
    intro st rest hlen hf hscan
    simp [metaScan] at hscan
  | succ n ih =>
    intro st rest hlen hf hscan
    cases rest with
    | nil => simp [metaScan] at hscan
    | cons raw rs =>
      have hlen' : rs.length ≤ n := Nat.le_of_succ_le_succ hlen
      rcases hfence : fenceMatch (rstrip raw) with _ | g
      · -- fence does not match
        cases hin : st.insideCode with
        | true =>
          simp only [goLines, metaScan, hfence, hin, if_true] at hscan ⊢
          simpa [hin] using ih { st with codeLines := st.codeLines ++ [raw] } rs hlen' hf (by show metaScan n st.insideCode rs = some pl; rw [hin]; exact hscan)
        | false =>
          cases hblank : (strip (rstrip raw)).isEmpty with
          | true =>
            simp only [goLines, metaScan, hfence, hin, hblank,
              Bool.false_eq_true, if_false, if_true] at hscan ⊢
            simpa [hin] using ih st rs hlen' hf (by show metaScan n st.insideCode rs = some pl; rw [hin]; exact hscan)
          | false =>
            rcases hh : headingMatch (rstrip raw) with _ | ⟨level, t0⟩
            · -- not a heading
              simp only [goLines, metaScan, hfence, hin, hblank, hh,
                Bool.false_eq_true, if_false] at hscan ⊢
              cases hl : ((ulMatch (rstrip raw)).isSome ||
                  (olMatch (rstrip raw)).isSome) with
              | true =>
                simp only [hl, if_true] at hscan ⊢
                simpa [hin] using ih { st with htmlLines := listAssemble st.htmlLines [] (raw :: rs.takeWhile listPred) } (rs.dropWhile listPred) (le_trans (dropWhile_length_le _ _) hlen') hf (by show metaScan n st.insideCode (rs.dropWhile listPred) = some pl; rw [hin]; exact hscan)
              | false =>
                simp only [hl, Bool.false_eq_true, if_false] at hscan ⊢
                cases ht : isTableLine (rstrip raw) with
                | true =>
                  simp only [ht, if_true] at hscan ⊢
                  simpa [hin] using ih { st with htmlLines := st.htmlLines ++ [parse_table (rstrip raw :: rs.takeWhile isTableLine)] } (rs.dropWhile isTableLine) (le_trans (dropWhile_length_le _ _) hlen') hf (by show metaScan n st.insideCode (rs.dropWhile isTableLine) = some pl; rw [hin]; exact hscan)
                | false =>
                  simp only [ht, Bool.false_eq_true, if_false] at hscan ⊢
                  cases hbq : (bqMatch (rstrip raw)).isSome with
                  | true =>
                    simp only [hbq, if_true] at hscan ⊢
                    simpa [hin] using ih { st with htmlLines := st.htmlLines ++ [str "<blockquote>" ++ List.intercalate (str " ") ((raw :: rs.takeWhile bqPred).map (fun l => inline_parse (escape_html (strip ((bqMatch (rstrip l)).getD []))))) ++ str "</blockquote>"] } (rs.dropWhile bqPred) (le_trans (dropWhile_length_le _ _) hlen') hf (by show metaScan n st.insideCode (rs.dropWhile bqPred) = some pl; rw [hin]; exact hscan)
                  | false =>
                    simp only [hbq, Bool.false_eq_true, if_false] at hscan ⊢
                    cases hhr : isHR (rstrip raw) with
                    | true =>
                      simp only [hhr, if_true] at hscan ⊢
                      simpa [hin] using ih { st with htmlLines := st.htmlLines ++ [str "<hr>"] } rs hlen' hf (by show metaScan n st.insideCode rs = some pl; rw [hin]; exact hscan)
                    | false =>
                      -- the paragraph branch: the scan stops here
                      simp only [hhr, Bool.false_eq_true, if_false] at hscan ⊢
                      rw [Option.some_inj] at hscan
                      rw [hf]
                      simp only [if_true]
                      rw [meta_stable n _ _ (by
                        show optFalsy (some (computeMeta (buildPara (raw :: rs.takeWhile paraPred)))) = false
                        rw [hscan]
                        simpa [optFalsy] using hne)]
                      rw [hscan]
            · -- heading: skipped by the scan, meta unchanged
              simp only [goLines, metaScan, hfence, hin, hblank, hh,
                Bool.false_eq_true, if_false] at hscan ⊢
              simpa [hin] using ih { st with title := if optFalsy st.title then some (strip t0) else st.title, htmlLines := st.htmlLines ++ [str "<h" ++ [levelChar level] ++ str ">" ++ inline_parse (escape_html (strip t0)) ++ str "</h" ++ [levelChar level] ++ str ">"] } rs hlen' hf (by show metaScan n st.insideCode rs = some pl; rw [hin]; exact hscan)
      · -- fence matches: toggle the inside flag
        cases hin : st.insideCode with
        | true =>
          simp only [goLines, metaScan, hfence, hin, if_true] at hscan ⊢
          simpa [hin] using ih { st with insideCode := false, htmlLines := st.htmlLines ++ [fenceFragment st] } rs hlen' hf hscan
        | false =>
          simp only [goLines, metaScan, hfence, hin, Bool.false_eq_true,
            if_false] at hscan ⊢
          simpa [hin] using ih { st with insideCode := true, codeLang := strip g, codeLines := [] } rs hlen' hf hscan

/-- C6 (confirmed): for any document whose first paragraph block — the
first paragraph the scanning loop reaches, characterised by `metaScan`,
after any headings, blank lines, lists, tables, blockquotes, rules or
fenced blocks, and whether or not a blank line or the end of input
terminates it — consists of plain-text lines, the returned description
is the paragraph text (its lines joined by single spaces) truncated to
its first 157 characters plus the ellipsis marker when that text
exceeds 160 characters, and the text unchanged otherwise; later
paragraphs never overwrite it (`meta_stable`). -/
theorem meta_description_truncation (md : String) (pl : List Str)
    (hscan : metaScan (splitlines md.data).length false (splitlines md.data) =
      some pl)
    (hplain : ∀ l ∈ pl, plainPara l = true) :
    (md_to_html md).meta.data =
      (if 160 < (joinSp pl).length then (joinSp pl).take 157 ++ str "..."
       else joinSp pl) := by
  have hnil : pl ≠ [] := metaScan_some_ne_nil _ _ _ pl hscan
  have hb : buildPara pl = joinSp pl := plain_buildPara_list pl hnil hplain
  have hcm : (computeMeta (buildPara pl)).isEmpty = false := by
    rw [hb]
    exact plain_computeMeta_join_ne pl hnil hplain
  have h := meta_main (splitlines md.data).length pl hcm initSt
    (splitlines md.data) le_rfl rfl hscan
  have hmeta : (md_to_html md).meta.data = computeMeta (buildPara pl) := by
    simp only [md_to_html]
    rw [h]
    rfl
  rw [hmeta, hb]
  exact plain_computeMeta_join pl hplain

/-- Witness for `meta_description_truncation`: a heading-first document
with a two-line plain first paragraph ending at the end of input, and a
161-character one-line paragraph that gets truncated. -/
theorem meta_description_truncation_witness :
    metaScan (splitlines (str "# T\n\nfirst line\nsecond line")).length false
        (splitlines (str "# T\n\nfirst line\nsecond line")) =
      some [str "first line", str "second line"] ∧
    (md_to_html "# T\n\nfirst line\nsecond line").meta.data =
      str "first line second line" ∧
    (md_to_html "aaaaaaaaaaaaaaaaaaaaaaaaaaaaaaaaaaaaaaaaaaaaaaaaaaaaaaaaaaaaaaaaaaaaaaaaaaaaaaaaaaaaaaaaaaaaaaaaaaaaaaaaaaaaaaaaaaaaaaaaaaaaaaaaaaaaaaaaaaaaaaaaaaaaaaaaaaaaaaaaa").meta.data =
      (str "aaaaaaaaaaaaaaaaaaaaaaaaaaaaaaaaaaaaaaaaaaaaaaaaaaaaaaaaaaaaaaaaaaaaaaaaaaaaaaaaaaaaaaaaaaaaaaaaaaaaaaaaaaaaaaaaaaaaaaaaaaaaaaaaaaaaaaaaaaaaaaaaaaaaaaaaaaaaaaaaa").take 157 ++
        str "..." :=
  ⟨by decide,
   by
     rw [meta_description_truncation "# T\n\nfirst line\nsecond line"
       [str "first line", str "second line"] (by decide) (by decide)]
     decide,
   by
     rw [meta_description_truncation
       "aaaaaaaaaaaaaaaaaaaaaaaaaaaaaaaaaaaaaaaaaaaaaaaaaaaaaaaaaaaaaaaaaaaaaaaaaaaaaaaaaaaaaaaaaaaaaaaaaaaaaaaaaaaaaaaaaaaaaaaaaaaaaaaaaaaaaaaaaaaaaaaaaaaaaaaaaaaaaaaaa"
       [str "aaaaaaaaaaaaaaaaaaaaaaaaaaaaaaaaaaaaaaaaaaaaaaaaaaaaaaaaaaaaaaaaaaaaaaaaaaaaaaaaaaaaaaaaaaaaaaaaaaaaaaaaaaaaaaaaaaaaaaaaaaaaaaaaaaaaaaaaaaaaaaaaaaaaaaaaaaaaaaaaa"]
       (by decide) (by decide)]
     decide⟩



lemma countTotal_nil (p : Str) : countTotal p [] = 0 := rfl

lemma countTotal_concat (p : Str) (xs : List Str) (y : Str) :
    countTotal p (xs ++ [y]) = countTotal p xs + countSub p y := by
  simp [countTotal]

lemma countSub_li_peel (p : Str) (hp : p ∈ listTags) (X : Str) :
    countSub p (str "<li>" ++ X) =
      (if p = str "<li>" then 1 else 0) + countSub p X := by
  have he : str "<li>" ++ X = '<' :: 'l' :: 'i' :: '>' :: X := rfl
  rw [he]
  fin_cases hp <;> simp [countSub, List.isPrefixOf] <;> decide

lemma safe_no_open (cs : Str) (h : safeAfterLt cs = true) (d0 : Char)
    (hd0h : tagHead d0 = false) (hd0c : tagHeadClose d0 = false)
    (hd0s : d0 ≠ '/') (q : Str) :
    (d0 :: q).isPrefixOf cs = false ∧
    ('/' :: d0 :: q).isPrefixOf cs = false := by
  cases cs with
  | nil => exact ⟨rfl, rfl⟩
  | cons d cs2 =>
    simp only [safeAfterLt] at h
    constructor
    · by_cases hd : d = d0
      · subst hd
        rw [if_neg hd0s, hd0h] at h
        exact (Bool.false_ne_true h).elim
      · simp only [List.isPrefixOf]
        rw [Bool.and_eq_false_iff]
        left
        simpa using fun e => hd e.symm
    · by_cases hd : d = '/'
      · subst hd
        rw [if_pos rfl] at h
        cases cs2 with
        | nil => exact (Bool.false_ne_true h).elim
        | cons d2 cs3 =>
          have h2 : tagHeadClose d2 = true := by simpa using h
          have hd2 : d2 ≠ d0 := by
            intro e
            rw [e, hd0c] at h2
            exact Bool.false_ne_true h2
          simp only [List.isPrefixOf]
          rw [Bool.and_eq_false_iff]
          right
          rw [Bool.and_eq_false_iff]
          left
          simpa using fun e => hd2 e.symm
      · simp only [List.isPrefixOf]
        rw [Bool.and_eq_false_iff]
        left
        simpa using fun e => hd e.symm

lemma countSub_zero_of_tagSafe (p : Str) (hp : p ∈ listTags) (s : Str)
    (h : tagSafe s = true) : countSub p s = 0 := by
  induction s with
  | nil => rfl
  | cons c cs ih =>
    simp only [tagSafe, Bool.and_eq_true] at h
    have hrec := ih h.2
    have hpfx : p.isPrefixOf (c :: cs) = false := by
      by_cases hc : c = '<'
      · subst hc
        rw [if_pos rfl] at h
        have hsafe := h.1
        fin_cases hp
        · have := (safe_no_open cs hsafe 'u' (by decide) (by decide)
            (by decide) (str "l>")).1
          simpa [List.isPrefixOf] using this
        · have := (safe_no_open cs hsafe 'u' (by decide) (by decide)
            (by decide) (str "l>")).2
          simpa [List.isPrefixOf] using this
        · have := (safe_no_open cs hsafe 'o' (by decide) (by decide)
            (by decide) (str "l>")).1
          simpa [List.isPrefixOf] using this
        · have := (safe_no_open cs hsafe 'o' (by decide) (by decide)
            (by decide) (str "l>")).2
          simpa [List.isPrefixOf] using this
        · have := (safe_no_open cs hsafe 'l' (by decide) (by decide)
            (by decide) (str "i>")).1
          simpa [List.isPrefixOf] using this
        · have := (safe_no_open cs hsafe 'l' (by decide) (by decide)
            (by decide) (str "i>")).2
          simpa [List.isPrefixOf] using this
      · fin_cases hp <;>
          (simp only [List.isPrefixOf]
           rw [Bool.and_eq_false_iff]
           left
           simpa using fun e => hc e.symm)
    simp only [countSub, hpfx, Bool.false_eq_true, if_false, hrec]

lemma isPrefixOf_append_mono (q s u : Str) (h : q.isPrefixOf s = true) :
    q.isPrefixOf (s ++ u) = true := by
  rw [List.isPrefixOf_iff_prefix] at h ⊢
  exact h.trans (List.prefix_append s u)

lemma pfx_split (q : Str) (t' : Str) :
    ∀ s, '<' ∉ q → q.isPrefixOf (s ++ '<' :: t') = true →
      s = [] ∨ q.isPrefixOf s = true := by
  induction q with
  | nil => intro s _ _; right; simp [List.isPrefixOf]
  | cons a q' ih =>
    intro s hq h
    cases s with
    | nil => left; rfl
    | cons b s' =>
      rw [List.cons_append] at h
      simp only [List.isPrefixOf, Bool.and_eq_true] at h
      have hq' : '<' ∉ q' := fun e => hq (List.mem_cons_of_mem _ e)
      rcases ih s' hq' h.2 with rfl | hpfx
      · cases q' with
        | nil =>
          right
          simp [List.isPrefixOf, h.1]
        | cons a2 q'' =>
          have h2 := h.2
          rw [List.nil_append] at h2
          simp only [List.isPrefixOf, Bool.and_eq_true] at h2
          have ha2 : a2 = '<' := eq_of_beq h2.1
          subst ha2
          exact (hq (List.mem_cons_of_mem a (List.mem_cons_self _ _))).elim
      · right
        simp only [List.isPrefixOf, Bool.and_eq_true]
        exact ⟨h.1, hpfx⟩

lemma countSub_append_tag (p : Str) (c2 : Str) (hp : p = '<' :: c2)
    (hc : '<' ∉ c2) (t' : Str) :
    ∀ s, countSub p (s ++ '<' :: t') =
      countSub p s + countSub p ('<' :: t') := by
  intro s
  induction s with
  | nil => simp [countSub]
  | cons c cs ih =>
    rw [List.cons_append]
    have hiff : p.isPrefixOf (c :: (cs ++ '<' :: t')) =
        p.isPrefixOf (c :: cs) := by
      cases e : p.isPrefixOf (c :: cs) with
      | true =>
        have := isPrefixOf_append_mono p (c :: cs) ('<' :: t') e
        rw [List.cons_append] at this
        exact this
      | false =>
        cases e2 : p.isPrefixOf (c :: (cs ++ '<' :: t')) with
        | false => rfl
        | true =>
          exfalso
          rw [hp] at e2 e
          simp only [List.isPrefixOf, Bool.and_eq_true] at e2
          rcases pfx_split c2 t' cs hc e2.2 with rfl | hpfx
          · cases c2 with
            | nil => simp [List.isPrefixOf, e2.1] at e
            | cons x c2' =>
              have h22 := e2.2
              rw [List.nil_append] at h22
              simp only [List.isPrefixOf, Bool.and_eq_true] at h22
              have hx : x = '<' := eq_of_beq h22.1
              subst hx
              exact hc (List.mem_cons_self _ _)
          · have htrue : ('<' :: c2).isPrefixOf (c :: cs) = true := by
              simp only [List.isPrefixOf]
              rw [e2.1, hpfx]
              rfl
            rw [htrue] at e
            simp at e
    have e1 : countSub p (c :: (cs ++ '<' :: t')) =
        (if p.isPrefixOf (c :: (cs ++ '<' :: t')) = true then 1 else 0) +
        countSub p (cs ++ '<' :: t') := rfl
    have e2 : countSub p (c :: cs) =
        (if p.isPrefixOf (c :: cs) = true then 1 else 0) +
        countSub p cs := rfl
    rw [e1, e2, hiff, ih]
    omega

lemma countSub_append_closer (p : Str) (hp : p ∈ listTags) (s : Str) :
    countSub p (s ++ str "</li>") =
      countSub p s + (if p = str "</li>" then 1 else 0) := by
  have he : str "</li>" = '<' :: str "/li>" := rfl
  fin_cases hp
  · rw [he, countSub_append_tag (str "<ul>") (str "ul>") rfl (by decide)
      (str "/li>") s]
    exact congrArg (fun x => countSub (str "<ul>") s + x) (by decide)
  · rw [he, countSub_append_tag (str "</ul>") (str "/ul>") rfl (by decide)
      (str "/li>") s]
    exact congrArg (fun x => countSub (str "</ul>") s + x) (by decide)
  · rw [he, countSub_append_tag (str "<ol>") (str "ol>") rfl (by decide)
      (str "/li>") s]
    exact congrArg (fun x => countSub (str "<ol>") s + x) (by decide)
  · rw [he, countSub_append_tag (str "</ol>") (str "/ol>") rfl (by decide)
      (str "/li>") s]
    exact congrArg (fun x => countSub (str "</ol>") s + x) (by decide)
  · rw [he, countSub_append_tag (str "<li>") (str "li>") rfl (by decide)
      (str "/li>") s]
    exact congrArg (fun x => countSub (str "<li>") s + x) (by decide)
  · exact (countSub_append_tag (str "</li>") (str "/li>") rfl (by decide)
      (str "/li>") s).trans
      (congrArg (fun x => countSub (str "</li>") s + x) (by decide))

lemma countSub_le_append (p s u : Str) :
    countSub p s ≤ countSub p (s ++ u) := by
  induction s with
  | nil => exact Nat.zero_le _
  | cons c cs ih =>
    rw [List.cons_append]
    simp only [countSub]
    have hle : (if p.isPrefixOf (c :: cs) = true then 1 else 0) ≤
        (if p.isPrefixOf (c :: (cs ++ u)) = true then 1 else 0) := by
      cases e : p.isPrefixOf (c :: cs) with
      | false => simp
      | true =>
        have e2 := isPrefixOf_append_mono p (c :: cs) u e
        rw [List.cons_append] at e2
        rw [e2]
    omega

lemma countSub_ge_right (p u : Str) :
    ∀ a, countSub p u ≤ countSub p (a ++ u) := by
  intro a
  induction a with
  | nil => exact Nat.le_refl _
  | cons c a' ih =>
    rw [List.cons_append]
    simp only [countSub]
    omega

lemma countSub_pos_of_suffix (p s : Str) (hp : p ≠ []) (h : p <:+ s) :
    1 ≤ countSub p s := by
  obtain ⟨a, rfl⟩ := h
  refine le_trans ?_ (countSub_ge_right p p a)
  cases p with
  | nil => exact absurd rfl hp
  | cons c cs =>
    simp only [countSub]
    rw [List.isPrefixOf_iff_prefix.mpr (List.prefix_refl _)]
    simp

lemma countSub_rstrip_zero (p r : Str) (h : countSub p r = 0) :
    countSub p (rstrip r) = 0 := by
  obtain ⟨u, hu⟩ := rstrip_prefix_self r
  have := countSub_le_append p (rstrip r) u
  rw [hu, h] at this
  omega

lemma rstrip_li2 (r : Str) :
    rstrip (str "<li>" ++ r) = str "<li>" ++ rstrip r := by
  unfold rstrip
  rw [List.reverse_append, List.dropWhile_append]
  split
  · rename_i he
    rw [List.isEmpty_iff] at he
    rw [he]
    decide
  · rw [List.reverse_append, List.reverse_reverse]

lemma li_item_not_closed2 (r : Str) (h0 : countSub (str "</li>") r = 0) :
    (str "</li>").isSuffixOf (str "<li>" ++ r) = false := by
  cases e : (str "</li>").isSuffixOf (str "<li>" ++ r) with
  | false => rfl
  | true =>
    have hsuf := List.isSuffixOf_iff_suffix.mp e
    have hpos := countSub_pos_of_suffix (str "</li>") (str "<li>" ++ r)
      (by decide) hsuf
    rw [countSub_li_peel (str "</li>") (by simp [listTags]) r] at hpos
    rw [if_neg (by decide), h0] at hpos
    omega

lemma countSub_item_closed2 (p : Str) (hp : p ∈ listTags) (r : Str)
    (h0 : countSub p r = 0) :
    countSub p ((str "<li>" ++ r) ++ str "</li>") =
      (if p = str "<li>" then 1 else 0) +
      (if p = str "</li>" then 1 else 0) := by
  rw [List.append_assoc]
  rw [countSub_li_peel p hp (r ++ str "</li>")]
  rw [countSub_append_closer p hp r, h0]
  omega

lemma rendered_no_list_tags (c : Str) (p : Str) (hp : p ∈ listTags) :
    countSub p (inline_parse (escape_html c)) = 0 :=
  countSub_zero_of_tagSafe p hp _ (inline_tagSafe c)

lemma close_inline_li_concat (hs : List Str) (x : Str)
    (hx : (str "</li>").isSuffixOf x = false) :
    close_inline_li (hs ++ [x]) = hs ++ [rstrip x ++ str "</li>"] := by
  unfold close_inline_li
  rw [List.getLast?_concat]
  simp only [hx, Bool.false_eq_true, if_false]
  rw [List.dropLast_concat]



lemma listMatch_type (l : Str) (t : Str) (i : Nat) (c : Str)
    (h : listMatch l = some (t, i, c)) : t = str "ul" ∨ t = str "ol" := by
  unfold listMatch at h
  split at h
  · rw [Option.some_inj] at h
    rw [Prod.mk.injEq] at h
    exact Or.inl h.1.symm
  · split at h
    · rw [Option.some_inj] at h
      rw [Prod.mk.injEq] at h
      exact Or.inr h.1.symm
    · simp at h

lemma flat_loop (i0 : Nat) (t1 : Str) (ht1 : t1 = str "ul" ∨ t1 = str "ol")
    (ls : List Str)
    (hls : ∀ l ∈ ls, ∃ t c, listMatch l = some (t, i0, c))
    (hsPre : List Str) (r : Str)
    (hr : ∀ p ∈ listTags, countSub p r = 0)
    (hul : countTotal (str "<ul>") hsPre =
      countTotal (str "</ul>") hsPre + (if t1 = str "ul" then 1 else 0))
    (hol : countTotal (str "<ol>") hsPre =
      countTotal (str "</ol>") hsPre + (if t1 = str "ol" then 1 else 0))
    (hli : countTotal (str "<li>") hsPre = countTotal (str "</li>") hsPre) :
    countTotal (str "<li>")
        (listAssemble (hsPre ++ [str "<li>" ++ r]) [(i0, t1)] ls) =
      countTotal (str "</li>")
        (listAssemble (hsPre ++ [str "<li>" ++ r]) [(i0, t1)] ls) ∧
    countTotal (str "<ul>")
        (listAssemble (hsPre ++ [str "<li>" ++ r]) [(i0, t1)] ls) =
      countTotal (str "</ul>")
        (listAssemble (hsPre ++ [str "<li>" ++ r]) [(i0, t1)] ls) ∧
    countTotal (str "<ol>")
        (listAssemble (hsPre ++ [str "<li>" ++ r]) [(i0, t1)] ls) =
      countTotal (str "</ol>")
        (listAssemble (hsPre ++ [str "<li>" ++ r]) [(i0, t1)] ls) := by
  induction ls generalizing hsPre r with
  | nil =>
    simp only [listAssemble]
    rw [close_inline_li_concat hsPre _
      (li_item_not_closed2 r (hr _ (by simp [listTags]))), rstrip_li2 r]
    simp only [closeAll]
    have eLi : countSub (str "<li>") ((str "<li>" ++ rstrip r) ++ str "</li>") = 1 := by
      rw [countSub_item_closed2 (str "<li>") (by simp [listTags]) (rstrip r)
        (countSub_rstrip_zero _ _ (hr _ (by simp [listTags])))]
      decide
    have eCli : countSub (str "</li>") ((str "<li>" ++ rstrip r) ++ str "</li>") = 1 := by
      rw [countSub_item_closed2 (str "</li>") (by simp [listTags]) (rstrip r)
        (countSub_rstrip_zero _ _ (hr _ (by simp [listTags])))]
      decide
    have eUl : countSub (str "<ul>") ((str "<li>" ++ rstrip r) ++ str "</li>") = 0 := by
      rw [countSub_item_closed2 (str "<ul>") (by simp [listTags]) (rstrip r)
        (countSub_rstrip_zero _ _ (hr _ (by simp [listTags])))]
      decide
    have eCul : countSub (str "</ul>") ((str "<li>" ++ rstrip r) ++ str "</li>") = 0 := by
      rw [countSub_item_closed2 (str "</ul>") (by simp [listTags]) (rstrip r)
        (countSub_rstrip_zero _ _ (hr _ (by simp [listTags])))]
      decide
    have eOl : countSub (str "<ol>") ((str "<li>" ++ rstrip r) ++ str "</li>") = 0 := by
      rw [countSub_item_closed2 (str "<ol>") (by simp [listTags]) (rstrip r)
        (countSub_rstrip_zero _ _ (hr _ (by simp [listTags])))]
      decide
    have eCol : countSub (str "</ol>") ((str "<li>" ++ rstrip r) ++ str "</li>") = 0 := by
      rw [countSub_item_closed2 (str "</ol>") (by simp [listTags]) (rstrip r)
        (countSub_rstrip_zero _ _ (hr _ (by simp [listTags])))]
      decide
    rcases ht1 with rfl | rfl
    · rw [if_pos rfl] at hul
      rw [if_neg (by decide)] at hol
      simp only [countTotal_concat, eLi, eCli, eUl, eCul, eOl, eCol,
        show countSub (str "<li>") (str "</" ++ str "ul" ++ str ">") = 0 from rfl,
        show countSub (str "</li>") (str "</" ++ str "ul" ++ str ">") = 0 from rfl,
        show countSub (str "<ul>") (str "</" ++ str "ul" ++ str ">") = 0 from rfl,
        show countSub (str "</ul>") (str "</" ++ str "ul" ++ str ">") = 1 from rfl,
        show countSub (str "<ol>") (str "</" ++ str "ul" ++ str ">") = 0 from rfl,
        show countSub (str "</ol>") (str "</" ++ str "ul" ++ str ">") = 0 from rfl]
      refine ⟨by omega, by omega, by omega⟩
    · rw [if_pos rfl] at hol
      rw [if_neg (by decide)] at hul
      simp only [countTotal_concat, eLi, eCli, eUl, eCul, eOl, eCol,
        show countSub (str "<li>") (str "</" ++ str "ol" ++ str ">") = 0 from rfl,
        show countSub (str "</li>") (str "</" ++ str "ol" ++ str ">") = 0 from rfl,
        show countSub (str "<ul>") (str "</" ++ str "ol" ++ str ">") = 0 from rfl,
        show countSub (str "</ul>") (str "</" ++ str "ol" ++ str ">") = 0 from rfl,
        show countSub (str "<ol>") (str "</" ++ str "ol" ++ str ">") = 0 from rfl,
        show countSub (str "</ol>") (str "</" ++ str "ol" ++ str ">") = 1 from rfl]
      refine ⟨by omega, by omega, by omega⟩
  | cons l ls' ih =>
    obtain ⟨t, c, hm⟩ := hls l (List.mem_cons_self _ _)
    simp only [listAssemble, hm]
    rw [if_neg (lt_irrefl i0), if_pos (beq_self_eq_true i0)]
    rw [close_inline_li_concat hsPre _
      (li_item_not_closed2 r (hr _ (by simp [listTags]))), rstrip_li2 r]
    have eLi : countSub (str "<li>") ((str "<li>" ++ rstrip r) ++ str "</li>") = 1 := by
      rw [countSub_item_closed2 (str "<li>") (by simp [listTags]) (rstrip r)
        (countSub_rstrip_zero _ _ (hr _ (by simp [listTags])))]
      decide
    have eCli : countSub (str "</li>") ((str "<li>" ++ rstrip r) ++ str "</li>") = 1 := by
      rw [countSub_item_closed2 (str "</li>") (by simp [listTags]) (rstrip r)
        (countSub_rstrip_zero _ _ (hr _ (by simp [listTags])))]
      decide
    have eUl : countSub (str "<ul>") ((str "<li>" ++ rstrip r) ++ str "</li>") = 0 := by
      rw [countSub_item_closed2 (str "<ul>") (by simp [listTags]) (rstrip r)
        (countSub_rstrip_zero _ _ (hr _ (by simp [listTags])))]
      decide
    have eCul : countSub (str "</ul>") ((str "<li>" ++ rstrip r) ++ str "</li>") = 0 := by
      rw [countSub_item_closed2 (str "</ul>") (by simp [listTags]) (rstrip r)
        (countSub_rstrip_zero _ _ (hr _ (by simp [listTags])))]
      decide
    have eOl : countSub (str "<ol>") ((str "<li>" ++ rstrip r) ++ str "</li>") = 0 := by
      rw [countSub_item_closed2 (str "<ol>") (by simp [listTags]) (rstrip r)
        (countSub_rstrip_zero _ _ (hr _ (by simp [listTags])))]
      decide
    have eCol : countSub (str "</ol>") ((str "<li>" ++ rstrip r) ++ str "</li>") = 0 := by
      rw [countSub_item_closed2 (str "</ol>") (by simp [listTags]) (rstrip r)
        (countSub_rstrip_zero _ _ (hr _ (by simp [listTags])))]
      decide
    exact ih (fun x hx => hls x (List.mem_cons_of_mem _ hx))
      (hsPre ++ [(str "<li>" ++ rstrip r) ++ str "</li>"])
      (inline_parse (escape_html c))
      (fun p hp => rendered_no_list_tags c p hp)
      (by simp only [countTotal_concat, eUl, eCul]; omega)
      (by simp only [countTotal_concat, eOl, eCol]; omega)
      (by simp only [countTotal_concat, eLi, eCli]; omega)

/-- C3 (amended): a flat list run — every item at the same indent —
assembles into fragments with equal open/close counts for `<ul>`,
`<ol>` and `<li>` tags, for arbitrary item text (the rendered inline
content can never contain a list tag, since every `<` it contains
starts one of the inline tag literals); the nested two-space example
does put a nested `<ul>` inside the parent `<li>` and closes both
`<ul>`s, but the parent `<li>` is left unclosed (see the
counterexample), so full tag balance fails as soon as a run nests. -/
theorem list_flat_run_balanced :
    (∀ (run : List Str) (i0 : Nat),
      (∀ l ∈ run, ∃ t c, listMatch l = some (t, i0, c)) →
      countTotal (str "<li>") (listAssemble [] [] run) =
        countTotal (str "</li>") (listAssemble [] [] run) ∧
      countTotal (str "<ul>") (listAssemble [] [] run) =
        countTotal (str "</ul>") (listAssemble [] [] run) ∧
      countTotal (str "<ol>") (listAssemble [] [] run) =
        countTotal (str "</ol>") (listAssemble [] [] run)) ∧
    (md_to_html "- a\n  - b").body =
      "<ul>\n<li>a<ul>\n<li>b</li>\n</ul>\n</ul>" ∧
    countSub (str "<ul>") ((md_to_html "- a\n  - b").body.data) =
      countSub (str "</ul>") ((md_to_html "- a\n  - b").body.data) := by
  refine ⟨?_, by decide, by decide⟩
  intro run i0 hrun
  cases run with
  | nil => exact ⟨rfl, rfl, rfl⟩
  | cons l ls =>
    obtain ⟨t, c, hm⟩ := hrun l (List.mem_cons_self _ _)
    have ht := listMatch_type l t i0 c hm
    simp only [listAssemble, hm]
    rcases ht with rfl | rfl
    · exact flat_loop i0 (str "ul") (Or.inl rfl) ls
        (fun x hx => hrun x (List.mem_cons_of_mem _ hx))
        [str "<" ++ str "ul" ++ str ">"] (inline_parse (escape_html c))
        (fun p hp => rendered_no_list_tags c p hp)
        (by decide) (by decide) (by decide)
    · exact flat_loop i0 (str "ol") (Or.inr rfl) ls
        (fun x hx => hrun x (List.mem_cons_of_mem _ hx))
        [str "<" ++ str "ol" ++ str ">"] (inline_parse (escape_html c))
        (fun p hp => rendered_no_list_tags c p hp)
        (by decide) (by decide) (by decide)

/-- Witness for `list_flat_run_balanced` on the concrete flat run
`- **a**` / `- b` (the first item carries inline markup). -/
theorem list_flat_run_balanced_witness :
    countTotal (str "<li>") (listAssemble [] [] [str "- **a**", str "- b"]) =
      countTotal (str "</li>") (listAssemble [] [] [str "- **a**", str "- b"]) ∧
    countTotal (str "<ul>") (listAssemble [] [] [str "- **a**", str "- b"]) =
      countTotal (str "</ul>") (listAssemble [] [] [str "- **a**", str "- b"]) ∧
    countTotal (str "<ol>") (listAssemble [] [] [str "- **a**", str "- b"]) =
      countTotal (str "</ol>") (listAssemble [] [] [str "- **a**", str "- b"]) :=
  list_flat_run_balanced.1 [str "- **a**", str "- b"] 0 (by
    intro l hl
    rcases List.mem_pair.mp hl with rfl | rfl
    · exact ⟨str "ul", str "**a**", by decide⟩
    · exact ⟨str "ul", str "b", by decide⟩)


end MD
